import Mathlib

/-!
# Verification of the maze generator / solver (`src/maze.cc`)

Shallow embedding of the core of `maze.cc`: the grid data model, the
recursive-backtracking maze generator, the BFS pathfinder, and the
session/animation controller (`Maze` class).  Rendering (`draw`,
`drawCell`, `drawPathCell`) and the GLUT adapters are out of scope.

Modelling conventions:
* `cells[y][x]` becomes a total function `Grid := Int → Int → Cell`;
  all accesses performed by the C++ code are bounds-guarded, so the
  values outside `[0,W)×[0,H)` are never relevant.
* C++ `int` coordinates become `Int`.
* The `std::mt19937` random stream is modelled by an oracle
  `choice : ℕ → ℕ`: the combination of `std::shuffle` in
  `getUnvisitedNeighbors` and the uniform index drawn in `generateMaze`
  amounts to selecting an arbitrary element of the (fixed-order)
  neighbour list, so the oracle picks an index into the unshuffled list.
  All theorems quantify over every oracle, hence over every random
  behaviour of the source.
* The three `while` loops (`generateMaze`, `findPathBFS`,
  `reconstructPath`) are embedded with explicit fuel.  The fuel values
  (`2*W*H + 1`, `W*H + 1`, `W*H + 1`) are proved sufficient: each loop
  iteration strictly decreases an explicit measure bounded by the fuel.
* `MAZE_WIDTH`/`MAZE_HEIGHT` (both 21) are kept as parameters `W H : ℕ`
  so that statements can also be instantiated on small grids; claim-level
  theorems about the program instantiate them at 21.
* `movePath.size() - 1` in `autoMoveStep` is `size_t` arithmetic; it is
  embedded as arithmetic modulo `2^64`.
-/

set_option linter.unusedVariables false

/-- `enum CellType { WALL, PATH, PLAYER, TARGET }`. -/
inductive CellType where
  | WALL
  | PATH
  | PLAYER
  | TARGET
deriving DecidableEq

/-- `struct Cell` — the `x`,`y` members of the C++ struct are written but
never read by the program logic, so they are omitted. -/
structure Cell where
  type : CellType
  visited : Bool
deriving DecidableEq

/-- `struct Vector2i`. -/
structure Vector2i where
  x : Int
  y : Int
deriving DecidableEq

/-- `cells[y][x]` as a total function: `g y x` is `cells[y][x]`. -/
abbrev Grid := Int → Int → Cell

/-- `cells[y][x].type = t`. -/
def setCellType (g : Grid) (y x : Int) (t : CellType) : Grid :=
  fun Y X => if Y = y ∧ X = x then { g Y X with type := t } else g Y X

/-- `cells[y][x].visited = b`. -/
def setVisited (g : Grid) (y x : Int) (b : Bool) : Grid :=
  fun Y X => if Y = y ∧ X = x then { g Y X with visited := b } else g Y X

/-- `Maze::isValidPosition`. -/
def isValidPosition (W H : ℕ) (x y : Int) : Prop :=
  0 ≤ x ∧ x < (W : ℤ) ∧ 0 ≤ y ∧ y < (H : ℤ)

instance (W H : ℕ) (x y : Int) : Decidable (isValidPosition W H x y) := by
  unfold isValidPosition; infer_instance

/-- `Maze::directions = { (1,0), (-1,0), (0,1), (0,-1) }`. -/
def directions : List Vector2i := [⟨1, 0⟩, ⟨-1, 0⟩, ⟨0, 1⟩, ⟨0, -1⟩]

/-- The mutable state of the `Maze` class (rendering-only state omitted).
`currentMoveIndex` is a C++ `int` that only ever holds 0 and incremented
values, hence `ℕ`. -/
structure Maze where
  cells : Grid
  path : List Vector2i
  movePath : List Vector2i
  playerPos : Vector2i
  targetPos : Vector2i
  pathFound : Bool
  autoMoving : Bool
  currentMoveIndex : ℕ

/-- `Maze::getUnvisitedNeighbors`, with the final `std::shuffle` folded
into the selection oracle of `generateMaze` (see module docstring). -/
def getUnvisitedNeighbors (W H : ℕ) (g : Grid) (x y : Int) : List Vector2i :=
  ([⟨x + 2, y⟩, ⟨x - 2, y⟩, ⟨x, y + 2⟩, ⟨x, y - 2⟩] : List Vector2i).filter
    (fun p => decide (1 ≤ p.x ∧ p.x < (W : ℤ) - 1 ∧ 1 ≤ p.y ∧ p.y < (H : ℤ) - 1 ∧
      ¬(g p.y p.x).visited = true))

/-- The `while (!stack.empty())` loop of `Maze::generateMaze`.
Each iteration either marks a fresh room visited and pushes it, or pops;
the measure `2 * (unvisited rooms) + stack length` strictly decreases,
so fuel `2*W*H + 1` (provided by `generateMazeGrid`) is never exhausted. -/
def genLoop (W H : ℕ) (choice : ℕ → ℕ) : ℕ → Grid → List Vector2i → ℕ → Grid
  | 0, g, _, _ => g
  | _ + 1, g, [], _ => g
  | fuel + 1, g, cur :: rest, step =>
    let ns := getUnvisitedNeighbors W H g cur.x cur.y
    if h : ns = [] then
      genLoop W H choice fuel g rest (step + 1)
    else
      let next := ns.get ⟨choice step % ns.length, Nat.mod_lt _ (List.length_pos.mpr h)⟩
      let midX := (cur.x + next.x) / 2
      let midY := (cur.y + next.y) / 2
      let g1 := setCellType g midY midX .PATH
      let g2 := setCellType g1 next.y next.x .PATH
      let g3 := setVisited g2 next.y next.x true
      genLoop W H choice fuel g3 (next :: cur :: rest) (step + 1)

/-- `Maze::generateMaze` acting on the grid: blank every in-bounds cell
to `WALL`/unvisited, force `(1,1)` and `(W-2,H-2)` to `PATH`, mark
`(1,1)` visited and run the carving loop from stack `[(1,1)]`. -/
def generateMazeGrid (W H : ℕ) (choice : ℕ → ℕ) (g0 : Grid) : Grid :=
  let gBlank : Grid := fun y x =>
    if isValidPosition W H x y then { type := .WALL, visited := false } else g0 y x
  let g1 := setCellType gBlank 1 1 .PATH
  let g2 := setCellType g1 ((H : ℤ) - 2) ((W : ℤ) - 2) .PATH
  let g3 := setVisited g2 1 1 true
  genLoop W H choice (2 * W * H + 1) g3 [⟨1, 1⟩] 0

/-- `Maze::generateMaze` (mutates only `cells`). -/
def Maze.generateMaze (W H : ℕ) (choice : ℕ → ℕ) (m : Maze) : Maze :=
  { m with cells := generateMazeGrid W H choice m.cells }

/-- `Maze::reset`. -/
def Maze.reset (W H : ℕ) (m : Maze) : Maze :=
  let cleared : Grid := fun y x =>
    if isValidPosition W H x y then
      { type := if (m.cells y x).type = .PLAYER then .PATH else (m.cells y x).type,
        visited := false }
    else m.cells y x
  let g1 := setCellType cleared 1 1 .PLAYER
  let g2 := setCellType g1 ((H : ℤ) - 2) ((W : ℤ) - 2) .TARGET
  { cells := g2, path := m.path, movePath := [],
    playerPos := ⟨1, 1⟩, targetPos := ⟨(W : ℤ) - 2, (H : ℤ) - 2⟩,
    pathFound := false, autoMoving := false, currentMoveIndex := 0 }

/-- `Maze::generateNewMaze`. -/
def Maze.generateNewMaze (W H : ℕ) (choice : ℕ → ℕ) (m : Maze) : Maze :=
  (m.generateMaze W H choice).reset W H

/-- `Maze::movePlayer`. -/
def Maze.movePlayer (W H : ℕ) (m : Maze) (dx dy : Int) : Maze × Bool :=
  let newX := m.playerPos.x + dx
  let newY := m.playerPos.y + dy
  if isValidPosition W H newX newY ∧ (m.cells newY newX).type ≠ .WALL then
    let g1 := setCellType m.cells m.playerPos.y m.playerPos.x .PATH
    let g2 := setCellType g1 newY newX .PLAYER
    ({ m with cells := g2, playerPos := ⟨newX, newY⟩ }, true)
  else
    (m, false)

/-- `parentMap`, keyed by the flattened index `y * MAZE_WIDTH + x`. -/
abbrev ParentMap := Int → Option Vector2i

/-- The `for (dir : directions)` body of `Maze::findPathBFS`: try each
direction from `cur`, marking fresh reachable neighbours visited,
appending them to the queue and recording `cur` as their parent. -/
def bfsExpand (W H : ℕ) (cur : Vector2i) :
    List Vector2i → Grid → List Vector2i → ParentMap → Grid × List Vector2i × ParentMap
  | [], g, q, pm => (g, q, pm)
  | d :: ds, g, q, pm =>
    let newX := cur.x + d.x
    let newY := cur.y + d.y
    if isValidPosition W H newX newY ∧ ¬(g newY newX).visited = true ∧
        (g newY newX).type ≠ .WALL then
      bfsExpand W H cur ds (setVisited g newY newX true) (q ++ [⟨newX, newY⟩])
        (fun k => if k = newY * (W : ℤ) + newX then some cur else pm k)
    else
      bfsExpand W H cur ds g q pm

/-- The `while (!queue.empty())` loop of `Maze::findPathBFS`.  Each
iteration strictly decreases `(unvisited in-bounds cells) + (queue
length)`, so fuel `W*H + 1` (provided by `Maze.findPathBFS`) is never
exhausted; the fuel-0 branch coincides with the queue-empty branch. -/
def bfsLoop (W H : ℕ) (target : Vector2i) :
    ℕ → Grid → List Vector2i → ParentMap → Grid × ParentMap × Bool
  | 0, g, _, pm => (g, pm, false)
  | _ + 1, g, [], pm => (g, pm, false)
  | fuel + 1, g, cur :: rest, pm =>
    if cur = target then (g, pm, true)
    else
      let s := bfsExpand W H cur directions g rest pm
      bfsLoop W H target fuel s.1 s.2.1 s.2.2

/-- The `while (!(current == playerPos))` loop of `Maze::reconstructPath`,
collecting the chain of parents starting at `targetPos` (the caller
reverses the result).  A missing `parentMap` entry default-constructs
`Vector2i(0,0)`, exactly like `std::unordered_map::operator[]`.  After a
successful BFS the parent chain reaches `playerPos` in at most `W*H`
steps, so the fuel `W*H + 1` is never exhausted. -/
def reconstructLoop (W : ℕ) (pm : ParentMap) (player : Vector2i) :
    ℕ → Vector2i → List Vector2i → List Vector2i
  | 0, _, acc => acc
  | fuel + 1, cur, acc =>
    if cur = player then acc
    else reconstructLoop W pm player fuel
      ((pm (cur.y * (W : ℤ) + cur.x)).getD ⟨0, 0⟩) (acc ++ [cur])

/-- `Maze::resetVisited`. -/
def Maze.resetVisited (W H : ℕ) (m : Maze) : Maze :=
  { m with
    cells := fun y x =>
      if isValidPosition W H x y then { m.cells y x with visited := false } else m.cells y x,
    path := [], pathFound := false }

/-- `Maze::findPathBFS` (including the call to `reconstructPath`). -/
def Maze.findPathBFS (W H : ℕ) (m : Maze) : Maze :=
  let m1 := m.resetVisited W H
  let g := setVisited m1.cells m.playerPos.y m.playerPos.x true
  let r := bfsLoop W H m.targetPos (W * H + 1) g [m.playerPos] (fun _ => none)
  if r.2.2 = true then
    { m1 with
      cells := r.1, pathFound := true,
      path := (reconstructLoop W r.2.1 m.playerPos (W * H + 1) m.targetPos []).reverse }
  else
    { m1 with cells := r.1 }

/-- `Maze::prepareAutoMove`. -/
def Maze.prepareAutoMove (W H : ℕ) (m : Maze) : Maze :=
  let m1 := m.findPathBFS W H
  if m1.pathFound = true then
    { m1 with
      autoMoving := true, currentMoveIndex := 0,
      movePath := m1.playerPos :: m1.path }
  else m1

/-- `2^64`, the modulus of `size_t` arithmetic. -/
def SIZE_T_MOD : ℕ := 2 ^ 64

/-- `Maze::autoMoveStep`.  The guard `currentMoveIndex >= movePath.size() - 1`
is `size_t` arithmetic: `movePath.size() - 1` wraps to `2^64 - 1` when
`movePath` is empty, which is embedded as `(length + 2^64 - 1) % 2^64`.
The unchecked `movePath[currentMoveIndex]` access is embedded with
`List.getD`; the guard keeps the index in range whenever `autoMoving`
implies a non-empty `movePath`. -/
def Maze.autoMoveStep (m : Maze) : Maze × Bool :=
  let limit : ℕ := (m.movePath.length + (SIZE_T_MOD - 1)) % SIZE_T_MOD
  if ¬m.autoMoving = true ∨ limit ≤ m.currentMoveIndex then
    ({ m with autoMoving := false }, false)
  else
    let idx := m.currentMoveIndex + 1
    let nextPos := m.movePath.getD idx ⟨0, 0⟩
    let g1 := setCellType m.cells m.playerPos.y m.playerPos.x .PATH
    let g2 := setCellType g1 nextPos.y nextPos.x .PLAYER
    let m1 := { m with currentMoveIndex := idx, playerPos := nextPos, cells := g2 }
    if nextPos = m.targetPos then ({ m1 with autoMoving := false }, true)
    else (m1, true)

/-! ## Specification-side notions

4-connected adjacency, walkability and paths over non-`WALL` cells,
mirroring the graph the BFS explores and the spec's notion of
“4-connected non-Wall path”. -/

/-- `u` translated by `d`. -/
def vadd (u d : Vector2i) : Vector2i := ⟨u.x + d.x, u.y + d.y⟩

/-- 4-connected adjacency, via the program's own direction table. -/
def Adj (u v : Vector2i) : Prop := ∃ d ∈ directions, v = vadd u d

/-- In-bounds and not a wall — the cells BFS may enter. -/
def walkable (W H : ℕ) (g : Grid) (v : Vector2i) : Prop :=
  isValidPosition W H v.x v.y ∧ (g v.y v.x).type ≠ .WALL

/-- `PathTo W H g src v n`: there is a 4-connected path of `n` edges from
`src` to `v` all of whose cells except possibly `src` are in-bounds
non-`WALL` cells of `g`. -/
inductive PathTo (W H : ℕ) (g : Grid) (src : Vector2i) : Vector2i → ℕ → Prop where
  | refl : PathTo W H g src src 0
  | step {u v : Vector2i} {n : ℕ} :
      PathTo W H g src u n → Adj u v → walkable W H g v → PathTo W H g src v (n + 1)

/-- Reachability along 4-connected non-`WALL` cells. -/
def ReachableFrom (W H : ℕ) (g : Grid) (src v : Vector2i) : Prop :=
  ∃ n, PathTo W H g src v n

/-! Room / midpoint lattice of the generator. -/

/-- An interior cell with both coordinates odd: a room of the carving
lattice. -/
def roomCell (W H : ℕ) (v : Vector2i) : Prop :=
  1 ≤ v.x ∧ v.x ≤ (W : ℤ) - 2 ∧ 1 ≤ v.y ∧ v.y ≤ (H : ℤ) - 2 ∧
    v.x % 2 = 1 ∧ v.y % 2 = 1

instance (W H : ℕ) (v : Vector2i) : Decidable (roomCell W H v) := by
  unfold roomCell; infer_instance

/-- An interior cell with exactly one odd coordinate: the midpoint
between two rooms, carved to `PATH` iff the generator connected them. -/
def midCell (W H : ℕ) (v : Vector2i) : Prop :=
  1 ≤ v.x ∧ v.x ≤ (W : ℤ) - 2 ∧ 1 ≤ v.y ∧ v.y ≤ (H : ℤ) - 2 ∧
    ((v.x % 2 = 1 ∧ v.y % 2 = 0) ∨ (v.x % 2 = 0 ∧ v.y % 2 = 1))

instance (W H : ℕ) (v : Vector2i) : Decidable (midCell W H v) := by
  unfold midCell; infer_instance

/-- All in-bounds coordinate pairs `(x, y)`. -/
def cellBox (W H : ℕ) : Finset (Int × Int) :=
  Finset.Icc 0 ((W : ℤ) - 1) ×ˢ Finset.Icc 0 ((H : ℤ) - 1)

/-- The rooms of the lattice, as a finite set of coordinate pairs. -/
def roomFinset (W H : ℕ) : Finset (Int × Int) :=
  (cellBox W H).filter fun p => roomCell W H ⟨p.1, p.2⟩

/-- Number of carved connections: midpoint cells holding `PATH`. -/
def carvedMidCount (W H : ℕ) (g : Grid) : ℕ :=
  ((cellBox W H).filter fun p =>
    midCell W H ⟨p.1, p.2⟩ ∧ (g p.2 p.1).type = .PATH).card

/-- Number of cells of type `t` in the grid. -/
def countType (W H : ℕ) (g : Grid) (t : CellType) : ℕ :=
  ((cellBox W H).filter fun p => (g p.2 p.1).type = t).card

/-- The all-wall, all-unvisited grid the program starts from
(`cells.resize` + the blanking pass of `generateMaze`). -/
def allWall : Grid := fun _ _ => { type := .WALL, visited := false }

/-- The `Maze` state at construction time, before `generateMaze` and
`reset` run: default-constructed members, all cells walls. -/
def initMaze : Maze :=
  { cells := allWall, path := [], movePath := [], playerPos := ⟨0, 0⟩,
    targetPos := ⟨0, 0⟩, pathFound := false, autoMoving := false,
    currentMoveIndex := 0 }

/-! ## Basic lemmas about the state operations -/

lemma findPathBFS_playerPos (W H : ℕ) (m : Maze) :
    (m.findPathBFS W H).playerPos = m.playerPos := by
  simp only [Maze.findPathBFS, Maze.resetVisited]; split <;> rfl

lemma findPathBFS_targetPos (W H : ℕ) (m : Maze) :
    (m.findPathBFS W H).targetPos = m.targetPos := by
  simp only [Maze.findPathBFS, Maze.resetVisited]; split <;> rfl

lemma findPathBFS_movePath (W H : ℕ) (m : Maze) :
    (m.findPathBFS W H).movePath = m.movePath := by
  simp only [Maze.findPathBFS, Maze.resetVisited]; split <;> rfl

lemma findPathBFS_autoMoving (W H : ℕ) (m : Maze) :
    (m.findPathBFS W H).autoMoving = m.autoMoving := by
  simp only [Maze.findPathBFS, Maze.resetVisited]; split <;> rfl

lemma findPathBFS_currentMoveIndex (W H : ℕ) (m : Maze) :
    (m.findPathBFS W H).currentMoveIndex = m.currentMoveIndex := by
  simp only [Maze.findPathBFS, Maze.resetVisited]; split <;> rfl

/-! ## C3: `movePlayer` -/

/-- **C3.** For every `dx,dy` and every grid state, `movePlayer dx dy`
returns `true` and swaps the old player cell to `PATH` and the
destination cell to `PLAYER` iff the destination
`(playerPos.x+dx, playerPos.y+dy)` is in bounds and its kind is not
`WALL`; otherwise it returns `false` and leaves the state (grid and
player position) completely unchanged. -/
theorem movePlayer_spec (W H : ℕ) (m : Maze) (dx dy : Int) :
    ((m.movePlayer W H dx dy).2 = true ↔
      isValidPosition W H (m.playerPos.x + dx) (m.playerPos.y + dy) ∧
        (m.cells (m.playerPos.y + dy) (m.playerPos.x + dx)).type ≠ .WALL) ∧
    ((m.movePlayer W H dx dy).2 = true →
      (m.movePlayer W H dx dy).1.playerPos =
          ⟨m.playerPos.x + dx, m.playerPos.y + dy⟩ ∧
      ((m.movePlayer W H dx dy).1.cells (m.playerPos.y + dy)
          (m.playerPos.x + dx)).type = .PLAYER ∧
      ((⟨m.playerPos.x + dx, m.playerPos.y + dy⟩ : Vector2i) ≠ m.playerPos →
        ((m.movePlayer W H dx dy).1.cells m.playerPos.y m.playerPos.x).type = .PATH) ∧
      (∀ Y X : Int, ¬(Y = m.playerPos.y + dy ∧ X = m.playerPos.x + dx) →
        ¬(Y = m.playerPos.y ∧ X = m.playerPos.x) →
        (m.movePlayer W H dx dy).1.cells Y X = m.cells Y X) ∧
      (m.movePlayer W H dx dy).1.targetPos = m.targetPos ∧
      (m.movePlayer W H dx dy).1.path = m.path ∧
      (m.movePlayer W H dx dy).1.movePath = m.movePath ∧
      (m.movePlayer W H dx dy).1.pathFound = m.pathFound ∧
      (m.movePlayer W H dx dy).1.autoMoving = m.autoMoving) ∧
    ((m.movePlayer W H dx dy).2 = false → (m.movePlayer W H dx dy).1 = m) := by
  by_cases hc : isValidPosition W H (m.playerPos.x + dx) (m.playerPos.y + dy) ∧
      (m.cells (m.playerPos.y + dy) (m.playerPos.x + dx)).type ≠ .WALL
  · have hred : m.movePlayer W H dx dy =
        ({ m with
          cells := setCellType (setCellType m.cells m.playerPos.y m.playerPos.x .PATH)
            (m.playerPos.y + dy) (m.playerPos.x + dx) .PLAYER,
          playerPos := ⟨m.playerPos.x + dx, m.playerPos.y + dy⟩ }, true) := by
      simp only [Maze.movePlayer]
      exact if_pos hc
    rw [hred]
    refine ⟨by simp [hc], fun _ => ⟨rfl, ?_, ?_, ?_, rfl, rfl, rfl, rfl, rfl⟩,
      by simp⟩
    · simp [setCellType]
    · intro hne
      have hne' : ¬(dy = 0 ∧ dx = 0) := by
        intro ⟨h1, h2⟩
        exact hne (by cases m.playerPos with
          | mk px py => simp only [Vector2i.mk.injEq]; constructor <;> omega)
      simp [setCellType, hne']
    · intro Y X h1 h2
      simp [setCellType, h1, h2]
  · have hred : m.movePlayer W H dx dy = (m, false) := by
      simp only [Maze.movePlayer]
      exact if_neg hc
    rw [hred]
    simp [hc]

/-! ## C5: cancellation of the auto-move animation -/

/-- A concrete state mid-animation: `autoMoving` is set, the animation
path is `[(1,1),(2,1)]`, the player stands at `(1,1)` on an all-`PATH`
5×5 grid. -/
def mAnim : Maze :=
  { cells := fun _ _ => { type := .PATH, visited := false },
    path := [⟨2, 1⟩], movePath := [⟨1, 1⟩, ⟨2, 1⟩],
    playerPos := ⟨1, 1⟩, targetPos := ⟨3, 3⟩,
    pathFound := true, autoMoving := true, currentMoveIndex := 0 }

/-- **C5, counterexample.**  `movePlayer` does *not* abort the
animation: from a state with `autoMoving = true` a successful manual
move leaves `autoMoving` set and the stale animation path in place.
(In the program, manual movement during the animation is suppressed by
the input adapter `specialKeys`, which returns early when
`isAutoMoving()`; the controller itself does not cancel.) -/
theorem movePlayer_does_not_cancel_counterexample :
    mAnim.autoMoving = true ∧
    (mAnim.movePlayer 5 5 1 0).2 = true ∧
    (mAnim.movePlayer 5 5 1 0).1.autoMoving = true ∧
    (mAnim.movePlayer 5 5 1 0).1.movePath = [⟨1, 1⟩, ⟨2, 1⟩] := by
  refine ⟨rfl, ?_, ?_, ?_⟩ <;> · simp [Maze.movePlayer, mAnim]; decide

/-- **C5, amended.**  Regenerating the maze (`generateNewMaze`) and
resetting (`reset`) abort the animation: afterwards `autoMoving` is
`false` and the animation path `movePath` is discarded.  Manual movement
(`movePlayer`) leaves `autoMoving` and `movePath` untouched — in the
program it is the input adapter that suppresses manual moves while the
animation runs, not the controller. -/
theorem cancel_on_reset_and_regenerate (W H : ℕ) (choice : ℕ → ℕ) (m : Maze)
    (dx dy : Int) :
    (m.reset W H).autoMoving = false ∧ (m.reset W H).movePath = [] ∧
    (m.generateNewMaze W H choice).autoMoving = false ∧
    (m.generateNewMaze W H choice).movePath = [] ∧
    (m.movePlayer W H dx dy).1.autoMoving = m.autoMoving ∧
    (m.movePlayer W H dx dy).1.movePath = m.movePath := by
  refine ⟨rfl, rfl, rfl, rfl, ?_, ?_⟩ <;>
    · simp only [Maze.movePlayer]; split <;> rfl

/-! ## C9: `autoMoving` implies a non-empty animation path -/

/-- The invariant of claim C9: whenever the animation is running, the
animation path is non-empty. -/
def AnimInv (m : Maze) : Prop := m.autoMoving = true → m.movePath ≠ []

/-- **C9.**  `AnimInv` (a running animation has a non-empty `movePath`)
is established by `reset` and `generateNewMaze` and preserved by
`movePlayer`, `findPathBFS`, `prepareAutoMove` and `autoMoveStep`;
consequently the `size_t` guard value `movePath.size() - 1` computed by
`autoMoveStep` never wraps around while `autoMoving` is set: it equals
the exact `movePath.length - 1`. -/
theorem animInv_preserved (W H : ℕ) (choice : ℕ → ℕ) (m : Maze) (dx dy : Int) :
    AnimInv (m.reset W H) ∧
    AnimInv (m.generateNewMaze W H choice) ∧
    (AnimInv m → AnimInv (m.movePlayer W H dx dy).1) ∧
    (AnimInv m → AnimInv (m.findPathBFS W H)) ∧
    (AnimInv m → AnimInv (m.prepareAutoMove W H)) ∧
    (AnimInv m → AnimInv m.autoMoveStep.1) ∧
    (AnimInv m → m.autoMoving = true → m.movePath.length < SIZE_T_MOD →
      (m.movePath.length + (SIZE_T_MOD - 1)) % SIZE_T_MOD = m.movePath.length - 1) := by
  refine ⟨?_, ?_, ?_, ?_, ?_, ?_, ?_⟩
  · intro h; cases h
  · intro h; cases h
  · intro hI
    simp only [Maze.movePlayer]; split <;> exact hI
  · intro hI ha
    rw [findPathBFS_movePath]
    exact hI ((findPathBFS_autoMoving W H m) ▸ ha)
  · intro hI
    simp only [Maze.prepareAutoMove]
    split
    · intro _; simp
    · intro ha
      rw [findPathBFS_movePath]
      exact hI ((findPathBFS_autoMoving W H m) ▸ ha)
  · intro hI
    simp only [Maze.autoMoveStep]
    split
    · intro h; cases h
    · split
      · intro h; cases h
      · intro _
        rename_i hguard _ _
        rw [not_or] at hguard
        exact hI (by simpa using hguard.1)
  · intro hI ha hlen
    have hne : m.movePath ≠ [] := hI ha
    have h1 : 1 ≤ m.movePath.length := List.length_pos.mpr hne
    unfold SIZE_T_MOD at *
    omega

/-! ## C7: BFS when the player already stands on the target -/

/-- **C7.**  For every grid state in which the player position equals
the target position, `findPathBFS` terminates with `pathFound = true`
and an empty solution path: the start node is dequeued first, it equals
the target, and `reconstructPath` stops immediately. -/
theorem findPathBFS_at_target (W H : ℕ) (m : Maze)
    (h : m.playerPos = m.targetPos) :
    (m.findPathBFS W H).pathFound = true ∧ (m.findPathBFS W H).path = [] := by
  simp only [Maze.findPathBFS, Maze.resetVisited]
  rw [h]
  simp [bfsLoop, reconstructLoop]

/-- An all-`PATH` 5×5 state whose player already stands on the target. -/
def mSame : Maze :=
  { cells := fun _ _ => { type := .PATH, visited := false },
    path := [⟨9, 9⟩], movePath := [], playerPos := ⟨1, 1⟩, targetPos := ⟨1, 1⟩,
    pathFound := false, autoMoving := false, currentMoveIndex := 0 }

/-- Witness for C7 at the concrete state `mSame`. -/
theorem findPathBFS_at_target_witness :
    mSame.playerPos = mSame.targetPos ∧
    ((mSame.findPathBFS 5 5).pathFound = true ∧ (mSame.findPathBFS 5 5).path = []) :=
  ⟨rfl, findPathBFS_at_target 5 5 mSame rfl⟩

/-! ## BFS congruence: the search depends only on the in-bounds cells,
the player position and the target position -/

/-- Grids agreeing on every in-bounds cell. -/
def EqOnGrid (W H : ℕ) (g₁ g₂ : Grid) : Prop :=
  ∀ y x : Int, isValidPosition W H x y → g₁ y x = g₂ y x

lemma setVisited_eqOn {W H : ℕ} {g₁ g₂ : Grid} (y x : Int) (b : Bool)
    (h : EqOnGrid W H g₁ g₂) :
    EqOnGrid W H (setVisited g₁ y x b) (setVisited g₂ y x b) := by
  intro Y X hv
  simp only [setVisited]
  split <;> rw [h Y X hv]

lemma bfsExpand_congr {W H : ℕ} (cur : Vector2i) :
    ∀ (ds : List Vector2i) (g₁ g₂ : Grid) (q : List Vector2i) (pm : ParentMap),
    EqOnGrid W H g₁ g₂ →
    (bfsExpand W H cur ds g₁ q pm).2.1 = (bfsExpand W H cur ds g₂ q pm).2.1 ∧
    (bfsExpand W H cur ds g₁ q pm).2.2 = (bfsExpand W H cur ds g₂ q pm).2.2 ∧
    EqOnGrid W H (bfsExpand W H cur ds g₁ q pm).1 (bfsExpand W H cur ds g₂ q pm).1 := by
  intro ds
  induction ds with
  | nil => exact fun g₁ g₂ q pm h => ⟨rfl, rfl, h⟩
  | cons d ds ih =>
    intro g₁ g₂ q pm h
    simp only [bfsExpand]
    have hcond : (isValidPosition W H (cur.x + d.x) (cur.y + d.y) ∧
        ¬(g₁ (cur.y + d.y) (cur.x + d.x)).visited = true ∧
        (g₁ (cur.y + d.y) (cur.x + d.x)).type ≠ .WALL) ↔
        (isValidPosition W H (cur.x + d.x) (cur.y + d.y) ∧
        ¬(g₂ (cur.y + d.y) (cur.x + d.x)).visited = true ∧
        (g₂ (cur.y + d.y) (cur.x + d.x)).type ≠ .WALL) := by
      by_cases hv : isValidPosition W H (cur.x + d.x) (cur.y + d.y)
      · rw [h _ _ hv]
      · simp [hv]
    by_cases hc : isValidPosition W H (cur.x + d.x) (cur.y + d.y) ∧
        ¬(g₁ (cur.y + d.y) (cur.x + d.x)).visited = true ∧
        (g₁ (cur.y + d.y) (cur.x + d.x)).type ≠ .WALL
    · rw [if_pos hc, if_pos (hcond.mp hc)]
      exact ih _ _ _ _ (setVisited_eqOn _ _ _ h)
    · rw [if_neg hc, if_neg (fun hx => hc (hcond.mpr hx))]
      exact ih _ _ _ _ h
  termination_by ds => ds.length

lemma bfsLoop_congr {W H : ℕ} (target : Vector2i) :
    ∀ (fuel : ℕ) (q : List Vector2i) (pm : ParentMap) (g₁ g₂ : Grid),
    EqOnGrid W H g₁ g₂ →
    (bfsLoop W H target fuel g₁ q pm).2.1 = (bfsLoop W H target fuel g₂ q pm).2.1 ∧
    (bfsLoop W H target fuel g₁ q pm).2.2 = (bfsLoop W H target fuel g₂ q pm).2.2 := by
  intro fuel
  induction fuel with
  | zero => exact fun q pm g₁ g₂ _ => ⟨rfl, rfl⟩
  | succ fuel ih =>
    intro q pm g₁ g₂ h
    cases q with
    | nil => exact ⟨rfl, rfl⟩
    | cons cur rest =>
      simp only [bfsLoop]
      by_cases hct : cur = target
      · simp [hct]
      · rw [if_neg hct, if_neg hct]
        obtain ⟨hq, hpm, hg⟩ := bfsExpand_congr cur directions g₁ g₂ rest pm h
        rw [hq, hpm]
        exact ih _ _ _ _ hg

/-- BFS preserves the `type` field of every cell. -/
lemma bfsExpand_types {W H : ℕ} (cur : Vector2i) :
    ∀ (ds : List Vector2i) (g : Grid) (q : List Vector2i) (pm : ParentMap) (y x : Int),
    ((bfsExpand W H cur ds g q pm).1 y x).type = (g y x).type := by
  intro ds
  induction ds with
  | nil => intro g q pm y x; rfl
  | cons d ds ih =>
    intro g q pm y x
    simp only [bfsExpand]
    split
    · rw [ih]
      simp only [setVisited]
      split <;> rfl
    · exact ih g q pm y x

lemma bfsLoop_types {W H : ℕ} (target : Vector2i) :
    ∀ (fuel : ℕ) (g : Grid) (q : List Vector2i) (pm : ParentMap) (y x : Int),
    ((bfsLoop W H target fuel g q pm).1 y x).type = (g y x).type := by
  intro fuel
  induction fuel with
  | zero => intro g q pm y x; rfl
  | succ fuel ih =>
    intro g q pm y x
    cases q with
    | nil => rfl
    | cons cur rest =>
      simp only [bfsLoop]
      split
      · rfl
      · rw [ih, bfsExpand_types]

/-- Elements appended to the queue by `bfsExpand` are reachable from
`src` whenever `cur` and the queue already are (reachability judged in
any grid `g0` with the same cell types). -/
lemma bfsExpand_reach {W H : ℕ} {g0 : Grid} {src cur : Vector2i} :
    ∀ (ds : List Vector2i) (g : Grid) (q : List Vector2i) (pm : ParentMap),
    (∀ d ∈ ds, d ∈ directions) →
    (∀ y x : Int, (g y x).type = (g0 y x).type) →
    ReachableFrom W H g0 src cur →
    (∀ v ∈ q, ReachableFrom W H g0 src v) →
    (∀ y x : Int, ((bfsExpand W H cur ds g q pm).1 y x).type = (g0 y x).type) ∧
    (∀ v ∈ (bfsExpand W H cur ds g q pm).2.1, ReachableFrom W H g0 src v) := by
  intro ds
  induction ds with
  | nil => exact fun g q pm _ hty _ hq => ⟨hty, hq⟩
  | cons d ds ih =>
    intro g q pm hds hty hcur hq
    simp only [bfsExpand]
    split
    · rename_i hcond
      refine ih _ _ _ (fun e he => hds e (List.mem_cons_of_mem d he))
        (fun y x => by rw [setVisited]; dsimp only; split <;> simp [hty]) hcur ?_
      intro v hv
      rcases List.mem_append.mp hv with h | h
      · exact hq v h
      · have hveq : v = ⟨cur.x + d.x, cur.y + d.y⟩ := List.mem_singleton.mp h
        obtain ⟨n, hn⟩ := hcur
        refine ⟨n + 1, .step hn ⟨d, hds d (List.mem_cons_self _ _), by rw [hveq]; rfl⟩ ?_⟩
        rw [hveq]
        exact ⟨hcond.1, by have := hty (cur.y + d.y) (cur.x + d.x); rw [← this]; exact hcond.2.2⟩
    · exact ih _ _ _ (fun e he => hds e (List.mem_cons_of_mem d he)) hty hcur hq

/-- If the target is unreachable, the BFS loop never succeeds. -/
lemma bfsLoop_unreach {W H : ℕ} {g0 : Grid} {src target : Vector2i}
    (hunreach : ¬ ReachableFrom W H g0 src target) :
    ∀ (fuel : ℕ) (g : Grid) (q : List Vector2i) (pm : ParentMap),
    (∀ y x : Int, (g y x).type = (g0 y x).type) →
    (∀ v ∈ q, ReachableFrom W H g0 src v) →
    (bfsLoop W H target fuel g q pm).2.2 = false := by
  intro fuel
  induction fuel with
  | zero => intro g q pm _ _; rfl
  | succ fuel ih =>
    intro g q pm hty hq
    cases q with
    | nil => rfl
    | cons cur rest =>
      have hcur : cur ≠ target := fun h => hunreach (h ▸ hq cur (List.mem_cons_self _ _))
      simp only [bfsLoop, if_neg hcur]
      obtain ⟨hty', hq'⟩ := bfsExpand_reach directions g rest pm (fun d hd => hd) hty
        (hq cur (List.mem_cons_self _ _)) (fun v hv => hq v (List.mem_cons_of_mem cur hv))
      exact ih _ _ _ hty' hq'

/-- The solution path and `pathFound` computed by `findPathBFS` depend
only on the player position, the target position and the in-bounds cell
types. -/
lemma findPathBFS_congr {W H : ℕ} (m m' : Maze)
    (hp : m.playerPos = m'.playerPos) (ht : m.targetPos = m'.targetPos)
    (hcells : ∀ y x : Int, isValidPosition W H x y →
      (m.cells y x).type = (m'.cells y x).type) :
    (m.findPathBFS W H).path = (m'.findPathBFS W H).path ∧
    (m.findPathBFS W H).pathFound = (m'.findPathBFS W H).pathFound := by
  have heq : EqOnGrid W H
      (setVisited (fun y x => if isValidPosition W H x y then
        { m.cells y x with visited := false } else m.cells y x)
        m.playerPos.y m.playerPos.x true)
      (setVisited (fun y x => if isValidPosition W H x y then
        { m'.cells y x with visited := false } else m'.cells y x)
        m.playerPos.y m.playerPos.x true) := by
    apply setVisited_eqOn
    intro Y X hv
    simp only [if_pos hv]
    rw [hcells Y X hv]
  obtain ⟨hpm, hfound⟩ := bfsLoop_congr (W := W) (H := H) m.targetPos (W * H + 1)
    [m.playerPos] (fun _ => none) _ _ heq
  simp only [Maze.findPathBFS, Maze.resetVisited]
  rw [← hp, ← ht]
  rw [← hpm, ← hfound]
  split <;> exact ⟨rfl, rfl⟩

/-! ## C6: `findPathBFS` clears stale search state first and handles
the no-path case without failing -/

/-- **C6.**  `findPathBFS` first clears all visited flags, the previous
solution path and `pathFound` — so its outcome is independent of
whatever stale values those held — and on a grid with no 4-connected
non-`WALL` path from the player to the target it terminates normally
with `pathFound = false` and an empty solution path. -/
theorem findPathBFS_no_path (W H : ℕ) (m : Maze) (stale : Int → Int → Bool)
    (stalePath : List Vector2i) (staleFound : Bool) :
    ((Maze.findPathBFS W H
        { m with cells := fun y x => { m.cells y x with visited := stale y x },
                 path := stalePath, pathFound := staleFound }).path =
      (m.findPathBFS W H).path ∧
     (Maze.findPathBFS W H
        { m with cells := fun y x => { m.cells y x with visited := stale y x },
                 path := stalePath, pathFound := staleFound }).pathFound =
      (m.findPathBFS W H).pathFound) ∧
    (¬ ReachableFrom W H m.cells m.playerPos m.targetPos →
      (m.findPathBFS W H).pathFound = false ∧ (m.findPathBFS W H).path = []) := by
  constructor
  · exact findPathBFS_congr _ _ rfl rfl (fun y x _ => rfl)
  · intro hunreach
    have hfalse : (bfsLoop W H m.targetPos (W * H + 1)
        (setVisited (fun y x => if isValidPosition W H x y then
          { m.cells y x with visited := false } else m.cells y x)
          m.playerPos.y m.playerPos.x true)
        [m.playerPos] (fun _ => none)).2.2 = false := by
      apply bfsLoop_unreach hunreach
      · intro y x
        simp only [setVisited]
        split
        · split <;> rfl
        · split <;> rfl
      · intro v hv
        rw [List.mem_singleton.mp hv]
        exact ⟨0, .refl⟩
    simp only [Maze.findPathBFS, Maze.resetVisited]
    rw [hfalse]
    exact ⟨rfl, rfl⟩

/-! ## C10: determinism of the BFS -/

/-- **C10.**  `findPathBFS` is deterministic: the per-node expansion
order is the fixed direction sequence `+x, -x, +y, -y` (the program's
`directions` table), and two runs from states with identical in-bounds
cell types and identical player and target positions produce exactly
the same solution path and the same `pathFound` value. -/
theorem findPathBFS_deterministic (W H : ℕ) (m m' : Maze)
    (hp : m.playerPos = m'.playerPos) (ht : m.targetPos = m'.targetPos)
    (hcells : ∀ y x : Int, isValidPosition W H x y →
      (m.cells y x).type = (m'.cells y x).type) :
    directions = [⟨1, 0⟩, ⟨-1, 0⟩, ⟨0, 1⟩, ⟨0, -1⟩] ∧
    (m.findPathBFS W H).path = (m'.findPathBFS W H).path ∧
    (m.findPathBFS W H).pathFound = (m'.findPathBFS W H).pathFound :=
  ⟨rfl, findPathBFS_congr m m' hp ht hcells⟩

/-- Witness for C10: two runs from the same concrete state. -/
theorem findPathBFS_deterministic_witness :
    directions = [⟨1, 0⟩, ⟨-1, 0⟩, ⟨0, 1⟩, ⟨0, -1⟩] ∧
    (mSame.findPathBFS 5 5).path = (mSame.findPathBFS 5 5).path ∧
    (mSame.findPathBFS 5 5).pathFound = (mSame.findPathBFS 5 5).pathFound :=
  findPathBFS_deterministic 5 5 mSame mSame rfl rfl (fun _ _ _ => rfl)

/-! ## Shortest distances and the BFS invariant -/

/-- The BFS layer distance: the least number of edges of a 4-connected
non-`WALL` path from `src` to `v` (0 when no path exists, but it is only
used under a reachability hypothesis). -/
noncomputable def sdist (W H : ℕ) (g : Grid) (src v : Vector2i) : ℕ :=
  sInf { n | PathTo W H g src v n }

lemma sdist_attained {W H : ℕ} {g : Grid} {src v : Vector2i}
    (h : ReachableFrom W H g src v) : PathTo W H g src v (sdist W H g src v) :=
  Nat.sInf_mem h

lemma sdist_le {W H : ℕ} {g : Grid} {src v : Vector2i} {n : ℕ}
    (h : PathTo W H g src v n) : sdist W H g src v ≤ n :=
  Nat.sInf_le h

lemma PathTo.eq_src_of_zero {W H : ℕ} {g : Grid} {src v : Vector2i}
    (h : PathTo W H g src v 0) : v = src := by
  cases h; rfl

lemma sdist_src {W H : ℕ} {g : Grid} {src : Vector2i} :
    sdist W H g src src = 0 :=
  Nat.le_zero.mp (sdist_le .refl)

/-- In-bounds check on a position. -/
def inBp (W H : ℕ) (v : Vector2i) : Prop := isValidPosition W H v.x v.y

instance (W H : ℕ) (v : Vector2i) : Decidable (inBp W H v) := by
  unfold inBp; infer_instance

/-- The flattened `parentMap` index of a position. -/
def keyOf (W : ℕ) (v : Vector2i) : Int := v.y * (W : ℤ) + v.x

/-- A cell's visited flag. -/
def visIn (g : Grid) (v : Vector2i) : Prop := (g v.y v.x).visited = true

lemma keyOf_inj {W H : ℕ} {u v : Vector2i} (hu : inBp W H u) (hv : inBp W H v)
    (h : keyOf W u = keyOf W v) : u = v := by
  obtain ⟨a1, a2, a3, a4⟩ := hu
  obtain ⟨b1, b2, b3, b4⟩ := hv
  unfold keyOf at h
  have hy : u.y = v.y := by
    by_contra hne
    rcases lt_or_gt_of_ne hne with hlt | hgt
    · have h1 : u.y + 1 ≤ v.y := hlt
      nlinarith
    · have h1 : v.y + 1 ≤ u.y := hgt
      nlinarith
  have hx : u.x = v.x := by rw [hy] at h; linarith
  cases u; cases v; simp_all

lemma pathTo_endpoint {W H : ℕ} {g : Grid} {src v : Vector2i} {n : ℕ}
    (h : PathTo W H g src v n) : v = src ∨ walkable W H g v := by
  cases h with
  | refl => exact Or.inl rfl
  | step _ _ hw => exact Or.inr hw

/-- The invariant of the BFS loop: `g0` holds the original cell types,
`src`/`target` the endpoints, `(g, q, pm)` the loop state. -/
structure BfsInv (W H : ℕ) (g0 : Grid) (src target : Vector2i)
    (g : Grid) (q : List Vector2i) (pm : ParentMap) : Prop where
  types : ∀ y x : Int, (g y x).type = (g0 y x).type
  srcVis : visIn g src
  visReach : ∀ v, inBp W H v → visIn g v → ReachableFrom W H g0 src v
  parent : ∀ v, inBp W H v → visIn g v → v ≠ src →
    ∃ u, pm (keyOf W v) = some u ∧ Adj u v ∧ walkable W H g0 v ∧
      (inBp W H u ∨ u = src) ∧ visIn g u ∧
      sdist W H g0 src v = sdist W H g0 src u + 1
  qVis : ∀ v ∈ q, visIn g v ∧ (inBp W H v ∨ v = src) ∧ ReachableFrom W H g0 src v
  qSorted : q.Pairwise (fun a b => sdist W H g0 src a ≤ sdist W H g0 src b)
  qBand : ∀ a ∈ q, ∀ b ∈ q, sdist W H g0 src b ≤ sdist W H g0 src a + 1
  closed : ∀ v, visIn g v → (inBp W H v ∨ v = src) → v ∉ q →
    ∀ w, Adj v w → walkable W H g0 w → visIn g w
  targetq : visIn g target → (inBp W H target ∨ target = src) → target ∈ q

/-- Any path from `src` that ends unvisited passes through the queue:
its length exceeds the distance of some queued node. -/
lemma bfs_boundary {W H : ℕ} {g0 : Grid} {src target : Vector2i}
    {g : Grid} {q : List Vector2i} {pm : ParentMap}
    (inv : BfsInv W H g0 src target g q pm) :
    ∀ {n : ℕ} {w : Vector2i}, PathTo W H g0 src w n → ¬ visIn g w →
    ∃ v ∈ q, sdist W H g0 src v + 1 ≤ n := by
  intro n w hp hnv
  induction hp with
  | refl => exact absurd inv.srcVis hnv
  | @step u v k hpu hadj hwalk ih =>
    by_cases hvu : visIn g u
    · have hu_or : inBp W H u ∨ u = src := by
        rcases pathTo_endpoint hpu with h | h
        · exact Or.inr h
        · exact Or.inl h.1
      by_cases huq : u ∈ q
      · exact ⟨u, huq, Nat.add_le_add_right (sdist_le hpu) 1⟩
      · exact absurd (inv.closed u hvu hu_or huq v hadj hwalk) hnv
    · obtain ⟨v', hv'q, hle⟩ := ih hvu
      exact ⟨v', hv'q, le_trans hle (Nat.le_succ _)⟩

lemma setVisited_apply_type (g : Grid) (y x : Int) (b : Bool) (Y X : Int) :
    ((setVisited g y x b) Y X).type = (g Y X).type := by
  simp only [setVisited]; split <;> rfl

lemma visIn_setVisited_true (g : Grid) (y x : Int) (v : Vector2i) :
    visIn (setVisited g y x true) v ↔ ((v.y = y ∧ v.x = x) ∨ visIn g v) := by
  unfold visIn setVisited
  by_cases h : v.y = y ∧ v.x = x <;> simp [h]

lemma visIn_setVisited_mono {g : Grid} {y x : Int} {v : Vector2i}
    (h : visIn g v) : visIn (setVisited g y x true) v :=
  (visIn_setVisited_true g y x v).mpr (Or.inr h)

/-- Intermediate facts holding while `bfsExpand` processes the node
`cur`, relative to the pre-expansion loop state
`(gPre, cur :: rest, pmPre)`; `ds` is the list of directions still to
process. -/
structure ExpandMid (W H : ℕ) (g0 : Grid) (src cur : Vector2i) (gPre : Grid)
    (rest : List Vector2i) (pmPre : ParentMap)
    (ds : List Vector2i) (g : Grid) (q : List Vector2i) (pm : ParentMap) : Prop where
  hds : ∃ ds0, ds0 ++ ds = directions
  types : ∀ y x : Int, (g y x).type = (g0 y x).type
  mono : ∀ v, visIn gPre v → visIn g v
  fresh : ∀ v, visIn g v → ¬ visIn gPre v →
    Adj cur v ∧ walkable W H g0 v ∧ inBp W H v ∧ pm (keyOf W v) = some cur ∧
    sdist W H g0 src v = sdist W H g0 src cur + 1 ∧ v ∈ q
  qmem : ∀ v ∈ q, (v ∈ rest ∧ visIn gPre v) ∨ (visIn g v ∧ ¬ visIn gPre v)
  restq : ∀ v ∈ rest, v ∈ q
  sorted : q.Pairwise (fun a b => sdist W H g0 src a ≤ sdist W H g0 src b)
  band : ∀ a ∈ q, sdist W H g0 src cur ≤ sdist W H g0 src a ∧
    sdist W H g0 src a ≤ sdist W H g0 src cur + 1
  pmOld : ∀ v, inBp W H v → visIn gPre v → pm (keyOf W v) = pmPre (keyOf W v)
  covered : ∀ d ∈ directions, d ∉ ds →
    walkable W H g0 (vadd cur d) → visIn g (vadd cur d)


lemma bfsExpand_mid {W H : ℕ} {g0 : Grid} {src cur : Vector2i} {gPre : Grid}
    {rest : List Vector2i} {pmPre : ParentMap}
    (hcurReach : ReachableFrom W H g0 src cur)
    (hlow : ∀ (w : Vector2i) (n : ℕ), ¬ visIn gPre w → PathTo W H g0 src w n →
      sdist W H g0 src cur + 1 ≤ n) :
    ∀ (ds : List Vector2i) (g : Grid) (q : List Vector2i) (pm : ParentMap),
    ExpandMid W H g0 src cur gPre rest pmPre ds g q pm →
    ExpandMid W H g0 src cur gPre rest pmPre []
      (bfsExpand W H cur ds g q pm).1
      (bfsExpand W H cur ds g q pm).2.1
      (bfsExpand W H cur ds g q pm).2.2 := by
  intro ds
  induction ds with
  | nil => exact fun g q pm hm => hm
  | cons d ds ih =>
    intro g q pm hm
    obtain ⟨ds0, hds0⟩ := hm.hds
    have hd_dir : d ∈ directions := by
      rw [← hds0]; exact List.mem_append.mpr (Or.inr (List.mem_cons_self _ _))
    have hd_not_ds : d ∉ ds := by
      have hnd : directions.Nodup := by decide
      rw [← hds0] at hnd
      exact (List.nodup_cons.mp hnd.of_append_right).1
    have hds' : ∃ ds1, ds1 ++ ds = directions := ⟨ds0 ++ [d], by simpa using hds0⟩
    simp only [bfsExpand]
    split
    · rename_i hcond
      set w : Vector2i := ⟨cur.x + d.x, cur.y + d.y⟩ with hw
      have hwvadd : w = vadd cur d := rfl
      have hwalkw : walkable W H g0 w :=
        ⟨hcond.1, by rw [← hm.types]; exact hcond.2.2⟩
      have hnotvisw : ¬ visIn g w := hcond.2.1
      have hnotprew : ¬ visIn gPre w := fun hp => hnotvisw (hm.mono _ hp)
      have hadjw : Adj cur w := ⟨d, hd_dir, rfl⟩
      have hpathw : PathTo W H g0 src w (sdist W H g0 src cur + 1) :=
        .step (sdist_attained hcurReach) hadjw hwalkw
      have hsw : sdist W H g0 src w = sdist W H g0 src cur + 1 :=
        le_antisymm (sdist_le hpathw) (hlow w _ hnotprew (sdist_attained ⟨_, hpathw⟩))
      have hkeyw : keyOf W w = (cur.y + d.y) * (W : ℤ) + (cur.x + d.x) := rfl
      have hvisw' : visIn (setVisited g (cur.y + d.y) (cur.x + d.x) true) w :=
        (visIn_setVisited_true _ _ _ _).mpr (Or.inl ⟨rfl, rfl⟩)
      have hne_of_vis : ∀ v, visIn g v → v ≠ w := fun v hv hvw => hnotvisw (hvw ▸ hv)
      apply ih
      refine ⟨hds', ?_, ?_, ?_, ?_, ?_, ?_, ?_, ?_, ?_⟩
      · intro y x; rw [setVisited_apply_type]; exact hm.types y x
      · exact fun v hv => visIn_setVisited_mono (hm.mono v hv)
      · intro v hv hnp
        rcases (visIn_setVisited_true _ _ _ _).mp hv with hvw | hvg
        · have hveq : v = w := by
            rw [hw]
            cases v
            simp only [Vector2i.mk.injEq]
            exact ⟨hvw.2, hvw.1⟩
          subst hveq
          refine ⟨hadjw, hwalkw, hcond.1, ?_, hsw, List.mem_append.mpr (Or.inr (List.mem_singleton.mpr rfl))⟩
          show (if keyOf W w = (cur.y + d.y) * (W : ℤ) + (cur.x + d.x) then some cur
            else pm (keyOf W w)) = some cur
          rw [if_pos hkeyw]
        · obtain ⟨ha, hwk, hin, hpm, hsd, hq⟩ := hm.fresh v hvg hnp
          refine ⟨ha, hwk, hin, ?_, hsd, List.mem_append.mpr (Or.inl hq)⟩
          have hvnew : v ≠ w := hne_of_vis v hvg
          have hkne : keyOf W v ≠ keyOf W w :=
            fun hk => hvnew (keyOf_inj hin hcond.1 hk)
          show (if keyOf W v = (cur.y + d.y) * (W : ℤ) + (cur.x + d.x) then some cur
            else pm (keyOf W v)) = some cur
          rw [if_neg (hkeyw ▸ hkne), hpm]
      · intro v hv
        rcases List.mem_append.mp hv with hq | hsing
        · rcases hm.qmem v hq with ⟨h1, h2⟩ | ⟨h1, h2⟩
          · exact Or.inl ⟨h1, h2⟩
          · exact Or.inr ⟨visIn_setVisited_mono h1, h2⟩
        · rw [List.mem_singleton.mp hsing]
          exact Or.inr ⟨hvisw', hnotprew⟩
      · exact fun v hv => List.mem_append.mpr (Or.inl (hm.restq v hv))
      · refine List.pairwise_append.mpr ⟨hm.sorted, List.pairwise_singleton _ _, ?_⟩
        intro a ha b hb
        rw [List.mem_singleton.mp hb, hsw]
        exact (hm.band a ha).2
      · intro a ha
        rcases List.mem_append.mp ha with hq | hsing
        · exact hm.band a hq
        · rw [List.mem_singleton.mp hsing, hsw]
          exact ⟨Nat.le_succ _, le_rfl⟩
      · intro v hin hvp
        have hkne : keyOf W v ≠ keyOf W w :=
          fun hk => (hne_of_vis v (hm.mono v hvp)) (keyOf_inj hin hcond.1 hk)
        show (if keyOf W v = (cur.y + d.y) * (W : ℤ) + (cur.x + d.x) then some cur
          else pm (keyOf W v)) = pmPre (keyOf W v)
        rw [if_neg (hkeyw ▸ hkne)]
        exact hm.pmOld v hin hvp
      · intro d' hd' hnds hwalk
        by_cases hdd : d' = d
        · subst hdd
          exact hvisw'
        · have : d' ∉ d :: ds := by
            intro hmem
            rcases List.mem_cons.mp hmem with h | h
            · exact hdd h
            · exact hnds h
          exact visIn_setVisited_mono (hm.covered d' hd' this hwalk)
    · rename_i hcond
      apply ih
      refine ⟨hds', hm.types, hm.mono, hm.fresh, hm.qmem, hm.restq, hm.sorted,
        hm.band, hm.pmOld, ?_⟩
      intro d' hd' hnds hwalk
      by_cases hdd : d' = d
      · subst hdd
        by_contra hnv
        exact hcond ⟨hwalk.1, hnv, by rw [hm.types]; exact hwalk.2⟩
      · have : d' ∉ d :: ds := by
          intro hmem
          rcases List.mem_cons.mp hmem with h | h
          · exact hdd h
          · exact hnds h
        exact hm.covered d' hd' this hwalk

lemma bfsInv_step {W H : ℕ} {g0 : Grid} {src target cur : Vector2i}
    {g : Grid} {rest : List Vector2i} {pm : ParentMap}
    (inv : BfsInv W H g0 src target g (cur :: rest) pm) (hct : cur ≠ target) :
    BfsInv W H g0 src target
      (bfsExpand W H cur directions g rest pm).1
      (bfsExpand W H cur directions g rest pm).2.1
      (bfsExpand W H cur directions g rest pm).2.2 := by
  have hcurq := inv.qVis cur (List.mem_cons_self _ _)
  have hcurReach : ReachableFrom W H g0 src cur := hcurq.2.2
  have hlow : ∀ (w : Vector2i) (n : ℕ), ¬ visIn g w → PathTo W H g0 src w n →
      sdist W H g0 src cur + 1 ≤ n := by
    intro w n hnv hp
    obtain ⟨v, hvq, hle⟩ := bfs_boundary inv hp hnv
    have hcv : sdist W H g0 src cur ≤ sdist W H g0 src v := by
      rcases List.mem_cons.mp hvq with h | h
      · rw [h]
      · exact List.rel_of_pairwise_cons inv.qSorted h
    omega
  have hmid0 : ExpandMid W H g0 src cur g rest pm directions g rest pm := by
    refine ⟨⟨[], rfl⟩, inv.types, fun v h => h, ?_, ?_, fun v h => h, ?_, ?_,
      fun v _ _ => rfl, ?_⟩
    · exact fun v hv hnv => absurd hv hnv
    · exact fun v hv => Or.inl ⟨hv, (inv.qVis v (List.mem_cons_of_mem _ hv)).1⟩
    · exact inv.qSorted.of_cons
    · intro a ha
      exact ⟨List.rel_of_pairwise_cons inv.qSorted ha,
        inv.qBand cur (List.mem_cons_self _ _) a (List.mem_cons_of_mem _ ha)⟩
    · exact fun d hd hnd => absurd hd hnd
  have hfin := bfsExpand_mid hcurReach hlow directions g rest pm hmid0
  have hreach_fresh : ∀ v, visIn (bfsExpand W H cur directions g rest pm).1 v →
      ¬ visIn g v → ReachableFrom W H g0 src v := by
    intro v hv hnp
    obtain ⟨ha, hwk, _, _, _, _⟩ := hfin.fresh v hv hnp
    obtain ⟨k, hk⟩ := hcurReach
    exact ⟨k + 1, .step hk ha hwk⟩
  constructor
  · exact hfin.types
  · exact hfin.mono src inv.srcVis
  · intro v hin hv
    by_cases hpre : visIn g v
    · exact inv.visReach v hin hpre
    · exact hreach_fresh v hv hpre
  · intro v hin hv hne
    by_cases hpre : visIn g v
    · obtain ⟨u, hpmu, hadj, hwk, huor, hu, hsd⟩ := inv.parent v hin hpre hne
      refine ⟨u, ?_, hadj, hwk, huor, hfin.mono u hu, hsd⟩
      rw [hfin.pmOld v hin hpre]
      exact hpmu
    · obtain ⟨ha, hwk, hin', hpm, hsd, hq⟩ := hfin.fresh v hv hpre
      exact ⟨cur, hpm, ha, hwk, hcurq.2.1, hfin.mono cur hcurq.1, hsd⟩
  · intro v hv
    rcases hfin.qmem v hv with ⟨hrest, hpre⟩ | ⟨hv', hnp⟩
    · exact ⟨hfin.mono _ hpre, (inv.qVis v (List.mem_cons_of_mem _ hrest)).2.1,
        (inv.qVis v (List.mem_cons_of_mem _ hrest)).2.2⟩
    · obtain ⟨_, _, hin', _, _, _⟩ := hfin.fresh v hv' hnp
      exact ⟨hv', Or.inl hin', hreach_fresh v hv' hnp⟩
  · exact hfin.sorted
  · intro a ha b hb
    have h1 := (hfin.band a ha).1
    have h2 := (hfin.band b hb).2
    omega
  · intro v hv hor hnq w hadj hwalk
    by_cases hpre : visIn g v
    · by_cases hvc : v = cur
      · subst hvc
        obtain ⟨d, hd, hw⟩ := hadj
        rw [hw]
        exact hfin.covered d hd (List.not_mem_nil _) (hw ▸ hwalk)
      · have hnotmem : v ∉ cur :: rest := by
          intro hmem
          rcases List.mem_cons.mp hmem with h | h
          · exact hvc h
          · exact hnq (hfin.restq v h)
        exact hfin.mono w (inv.closed v hpre hor hnotmem w hadj hwalk)
    · obtain ⟨_, _, _, _, _, hq⟩ := hfin.fresh v hv hpre
      exact absurd hq hnq
  · intro hv hor
    by_cases hpre : visIn g target
    · rcases List.mem_cons.mp (inv.targetq hpre hor) with h | h
      · exact absurd h.symm hct
      · exact hfin.restq target h
    · exact (hfin.fresh target hv hpre).2.2.2.2.2

/-- The number of unvisited in-bounds cells. -/
def unvisitedCount (W H : ℕ) (g : Grid) : ℕ :=
  ((cellBox W H).filter fun p => ¬ (g p.2 p.1).visited = true).card

lemma mem_cellBox {W H : ℕ} {x y : Int} :
    (x, y) ∈ cellBox W H ↔ isValidPosition W H x y := by
  unfold cellBox isValidPosition
  simp only [Finset.mem_product, Finset.mem_Icc]
  omega

lemma bfsExpand_measure {W H : ℕ} (cur : Vector2i) :
    ∀ (ds : List Vector2i) (g : Grid) (q : List Vector2i) (pm : ParentMap),
    unvisitedCount W H (bfsExpand W H cur ds g q pm).1 +
      (bfsExpand W H cur ds g q pm).2.1.length =
    unvisitedCount W H g + q.length := by
  intro ds
  induction ds with
  | nil => intro g q pm; rfl
  | cons d ds ih =>
    intro g q pm
    simp only [bfsExpand]
    split
    · rename_i hcond
      rw [ih]
      have hmem : (cur.x + d.x, cur.y + d.y) ∈
          (cellBox W H).filter (fun p => ¬ (g p.2 p.1).visited = true) :=
        Finset.mem_filter.mpr ⟨mem_cellBox.mpr hcond.1, hcond.2.1⟩
      have hset : (cellBox W H).filter
            (fun p => ¬ ((setVisited g (cur.y + d.y) (cur.x + d.x) true) p.2 p.1).visited = true) =
          ((cellBox W H).filter (fun p => ¬ (g p.2 p.1).visited = true)).erase
            (cur.x + d.x, cur.y + d.y) := by
        ext p
        simp only [Finset.mem_filter, Finset.mem_erase, setVisited]
        constructor
        · intro ⟨hp1, hp2⟩
          split at hp2
          · exact absurd rfl hp2
          · rename_i hne
            refine ⟨?_, hp1, hp2⟩
            intro hpe
            exact hne ⟨by rw [hpe], by rw [hpe]⟩
        · intro ⟨hne, hp1, hp2⟩
          refine ⟨hp1, ?_⟩
          split
          · rename_i heq
            exact absurd (Prod.ext heq.2 heq.1) hne
          · exact hp2
      have hpos : 0 < ((cellBox W H).filter (fun p => ¬ (g p.2 p.1).visited = true)).card :=
        Finset.card_pos.mpr ⟨_, hmem⟩
      unfold unvisitedCount
      rw [hset, Finset.card_erase_of_mem hmem]
      simp only [List.length_append, List.length_singleton]
      omega
    · exact ih g q pm

/-- The parent-pointer facts extracted from the invariant at the moment
the target is dequeued. -/
def PInv (W H : ℕ) (g0 : Grid) (src : Vector2i) (g : Grid) (pm : ParentMap) : Prop :=
  ∀ v, inBp W H v → visIn g v → v ≠ src →
    ∃ u, pm (keyOf W v) = some u ∧ Adj u v ∧ walkable W H g0 v ∧
      (inBp W H u ∨ u = src) ∧ visIn g u ∧
      sdist W H g0 src v = sdist W H g0 src u + 1

lemma bfsInv_empty_unreach {W H : ℕ} {g0 : Grid} {src target : Vector2i}
    {g : Grid} {pm : ParentMap}
    (inv : BfsInv W H g0 src target g [] pm) :
    ¬ ReachableFrom W H g0 src target := by
  rintro ⟨n, hp⟩
  by_cases hvt : visIn g target
  · have hor : inBp W H target ∨ target = src := by
      rcases pathTo_endpoint hp with h | h
      · exact Or.inr h
      · exact Or.inl h.1
    exact absurd (inv.targetq hvt hor) (List.not_mem_nil _)
  · obtain ⟨v, hvq, _⟩ := bfs_boundary inv hp hvt
    exact absurd hvq (List.not_mem_nil _)

lemma bfsLoop_spec {W H : ℕ} {g0 : Grid} {src target : Vector2i} :
    ∀ (fuel : ℕ) (g : Grid) (q : List Vector2i) (pm : ParentMap),
    BfsInv W H g0 src target g q pm →
    unvisitedCount W H g + q.length ≤ fuel →
    ((bfsLoop W H target fuel g q pm).2.2 = true →
        PInv W H g0 src (bfsLoop W H target fuel g q pm).1
          (bfsLoop W H target fuel g q pm).2.1 ∧
        visIn (bfsLoop W H target fuel g q pm).1 target ∧
        (inBp W H target ∨ target = src) ∧
        visIn (bfsLoop W H target fuel g q pm).1 src ∧
        ReachableFrom W H g0 src target) ∧
    ((bfsLoop W H target fuel g q pm).2.2 = false →
        ¬ ReachableFrom W H g0 src target) := by
  intro fuel
  induction fuel with
  | zero =>
    intro g q pm inv hm
    have hq : q = [] := List.length_eq_zero.mp (by omega)
    subst hq
    exact ⟨fun h => by simp [bfsLoop] at h, fun _ => bfsInv_empty_unreach inv⟩
  | succ fuel ih =>
    intro g q pm inv hm
    cases q with
    | nil =>
      exact ⟨fun h => by simp [bfsLoop] at h, fun _ => bfsInv_empty_unreach inv⟩
    | cons cur rest =>
      by_cases hct : cur = target
      · simp only [bfsLoop, if_pos hct]
        refine ⟨fun _ => ⟨fun v a b c => inv.parent v a b c, ?_, ?_, inv.srcVis,
            hct ▸ (inv.qVis cur (List.mem_cons_self _ _)).2.2⟩,
          fun h => by simp at h⟩
        · exact hct ▸ (inv.qVis cur (List.mem_cons_self _ _)).1
        · exact hct ▸ (inv.qVis cur (List.mem_cons_self _ _)).2.1
      · simp only [bfsLoop, if_neg hct]
        have hinv' := bfsInv_step inv hct
        have hmeas : unvisitedCount W H (bfsExpand W H cur directions g rest pm).1 +
            (bfsExpand W H cur directions g rest pm).2.1.length ≤ fuel := by
          rw [bfsExpand_measure]
          simp only [List.length_cons] at hm
          omega
        exact ih _ _ _ hinv' hmeas

/-- Walking the recorded parent pointers from any visited node yields the
chain the source's `reconstructPath` collects: its length is exactly the
BFS layer distance of the node, its entries carry strictly decreasing
distances, and `reconstructLoop` returns it for any sufficient fuel. -/
lemma chain_of_PInv {W H : ℕ} {g0 : Grid} {src : Vector2i} {g : Grid} {pm : ParentMap}
    (hpi : PInv W H g0 src g pm) :
    ∀ (n : ℕ) (v : Vector2i), visIn g v → (inBp W H v ∨ v = src) →
    sdist W H g0 src v = n →
    ∃ l : List Vector2i,
      l.length = n ∧
      (∀ i w, l.get? i = some w →
        sdist W H g0 src w = n - i ∧ walkable W H g0 w) ∧
      (∀ fuel acc, n < fuel → reconstructLoop W pm src fuel v acc = acc ++ l) ∧
      (n ≠ 0 → l.head? = some v) := by
  intro n
  induction n using Nat.strong_induction_on with
  | _ n ihn =>
    intro v hv hor hsd
    by_cases hvs : v = src
    · subst hvs
      have hn0 : n = 0 := by rw [← hsd, sdist_src]
      subst hn0
      refine ⟨[], rfl, ?_, ?_, fun h => absurd rfl h⟩
      · intro i w hw; simp at hw
      · intro fuel acc hf
        cases fuel with
        | zero => omega
        | succ f => simp [reconstructLoop]
    · have hin : inBp W H v := hor.resolve_right hvs
      obtain ⟨u, hpmu, hadj, hwk, huor, hu, hsd'⟩ := hpi v hin hv hvs
      have hn1 : 1 ≤ n := by omega
      obtain ⟨lu, hlen, hfacts, hrec, hhead⟩ :=
        ihn (sdist W H g0 src u) (by omega) u hu huor rfl
      refine ⟨v :: lu, by simp [hlen]; omega, ?_, ?_, fun _ => rfl⟩
      · intro i w hw
        cases i with
        | zero =>
          simp only [List.get?] at hw
          cases hw
          exact ⟨by omega, hwk⟩
        | succ i =>
          simp only [List.get?] at hw
          obtain ⟨h1, h2⟩ := hfacts i w hw
          exact ⟨by omega, h2⟩
      · intro fuel acc hf
        cases fuel with
        | zero => omega
        | succ f =>
          simp only [reconstructLoop, if_neg hvs]
          have hget : (pm (v.y * (W : ℤ) + v.x)).getD ⟨0, 0⟩ = u := by
            rw [show v.y * (W : ℤ) + v.x = keyOf W v from rfl, hpmu]
            rfl
          rw [hget, hrec f (acc ++ [v]) (by omega)]
          simp

/-- Cardinality of the in-bounds cell box. -/
lemma cellBox_card (W H : ℕ) : (cellBox W H).card = W * H := by
  unfold cellBox
  rw [Finset.card_product, Int.card_Icc, Int.card_Icc]
  simp

/-- The chain produced by `chain_of_PInv` has pairwise distinct in-bounds
entries, so its length is at most `W * H`. -/
lemma chain_length_le {W H : ℕ} {g0 : Grid} {src : Vector2i} {n : ℕ}
    {l : List Vector2i} (hlen : l.length = n)
    (hfacts : ∀ i w, l.get? i = some w →
      sdist W H g0 src w = n - i ∧ walkable W H g0 w) :
    n ≤ W * H := by
  have hnodup : l.Nodup := by
    rw [List.nodup_iff_get?_ne_get?]
    intro i j hij hj hEq
    have hi : i < l.length := by omega
    have hwi : l.get? i = some (l.get ⟨i, hi⟩) := List.get?_eq_get hi
    have hwj : l.get? j = some (l.get ⟨i, hi⟩) := by rw [← hEq]; exact hwi
    have h1 := (hfacts i _ hwi).1
    have h2 := (hfacts j _ hwj).1
    omega
  have hmem : ∀ p ∈ l.map (fun v => (v.x, v.y)), p ∈ cellBox W H := by
    intro p hp
    obtain ⟨v, hv, hveq⟩ := List.mem_map.mp hp
    obtain ⟨i, hi⟩ := List.mem_iff_get?.mp hv
    have := (hfacts i v hi).2
    rw [← hveq]
    exact mem_cellBox.mpr this.1
  have hmapnodup : (l.map (fun v => (v.x, v.y))).Nodup := by
    refine hnodup.map ?_
    intro a b hab
    cases a; cases b
    simpa using hab
  have hsub : (l.map (fun v => (v.x, v.y))).toFinset ⊆ cellBox W H := by
    intro p hp
    exact hmem p (List.mem_toFinset.mp hp)
  have hcard := Finset.card_le_card hsub
  rw [List.toFinset_card_of_nodup hmapnodup, List.length_map, hlen, cellBox_card] at hcard
  exact hcard


lemma vec_ext {a b : Vector2i} (hx : a.x = b.x) (hy : a.y = b.y) : a = b := by
  cases a; cases b; simp_all

lemma resetVisited_cells (W H : ℕ) (m : Maze) :
    (m.resetVisited W H).cells = fun y x =>
      if isValidPosition W H x y then { m.cells y x with visited := false }
      else m.cells y x := rfl

lemma cleared_not_visIn {W H : ℕ} (m : Maze) (v : Vector2i) (hin : inBp W H v) :
    ¬ visIn (m.resetVisited W H).cells v := by
  unfold visIn
  rw [resetVisited_cells]
  dsimp only
  rw [if_pos (show isValidPosition W H v.x v.y from hin)]
  simp

/-- The invariant holds for the state `findPathBFS` hands to the loop:
visited flags cleared, the player's cell marked, the queue holding just
the player, the parent map empty. -/
lemma findPathBFS_initial_inv (W H : ℕ) (m : Maze) :
    BfsInv W H m.cells m.playerPos m.targetPos
      (setVisited (m.resetVisited W H).cells m.playerPos.y m.playerPos.x true)
      [m.playerPos] (fun _ => none) := by
  have hvis_src : ∀ v, inBp W H v →
      visIn (setVisited (m.resetVisited W H).cells m.playerPos.y m.playerPos.x true) v →
      v = m.playerPos := by
    intro v hin hv
    rcases (visIn_setVisited_true _ _ _ _).mp hv with h | h
    · exact vec_ext h.2 h.1
    · exact absurd h (cleared_not_visIn m v hin)
  constructor
  · intro y x
    rw [setVisited_apply_type, resetVisited_cells]
    dsimp only
    split <;> rfl
  · exact (visIn_setVisited_true _ _ _ _).mpr (Or.inl ⟨rfl, rfl⟩)
  · intro v hin hv
    rw [hvis_src v hin hv]
    exact ⟨0, .refl⟩
  · intro v hin hv hne
    exact absurd (hvis_src v hin hv) hne
  · intro v hv
    rw [List.mem_singleton.mp hv]
    exact ⟨(visIn_setVisited_true _ _ _ _).mpr (Or.inl ⟨rfl, rfl⟩), Or.inr rfl,
      ⟨0, .refl⟩⟩
  · exact List.pairwise_singleton _ _
  · intro a ha b hb
    rw [List.mem_singleton.mp ha, List.mem_singleton.mp hb]
    omega
  · intro v hv hor hnq
    rcases hor with hin | hsrc
    · exact absurd (by rw [hvis_src v hin hv]; exact List.mem_singleton.mpr rfl) hnq
    · exact absurd (by rw [hsrc]; exact List.mem_singleton.mpr rfl) hnq
  · intro hv hor
    rcases hor with hin | hsrc
    · rw [← hvis_src m.targetPos hin hv]
      exact List.mem_singleton.mpr rfl
    · rw [hsrc]
      exact List.mem_singleton.mpr rfl

lemma resetVisited_pathFound (W H : ℕ) (m : Maze) :
    (m.resetVisited W H).pathFound = false := rfl

lemma resetVisited_path (W H : ℕ) (m : Maze) :
    (m.resetVisited W H).path = [] := rfl

lemma unvisitedCount_le (W H : ℕ) (g : Grid) :
    unvisitedCount W H g ≤ W * H := by
  unfold unvisitedCount
  calc ((cellBox W H).filter fun p => ¬ (g p.2 p.1).visited = true).card
      ≤ (cellBox W H).card := Finset.card_filter_le _ _
    _ = W * H := cellBox_card W H

/-- Full characterisation of `findPathBFS`: on success the solution path
has length exactly the BFS layer distance from player to target, its
`i`-th entry is an in-bounds non-`WALL` cell at distance `i+1` from the
player, and its last entry is the target; on failure the target is
unreachable and the path is empty; the search succeeds whenever the
target is reachable. -/
lemma findPathBFS_spec (W H : ℕ) (m : Maze) :
    ((m.findPathBFS W H).pathFound = true →
      ReachableFrom W H m.cells m.playerPos m.targetPos ∧
      (m.findPathBFS W H).path.length =
        sdist W H m.cells m.playerPos m.targetPos ∧
      (∀ i w, (m.findPathBFS W H).path.get? i = some w →
        sdist W H m.cells m.playerPos w = i + 1 ∧ walkable W H m.cells w) ∧
      ((m.findPathBFS W H).path ≠ [] →
        (m.findPathBFS W H).path.getLast? = some m.targetPos)) ∧
    ((m.findPathBFS W H).pathFound = false →
      ¬ ReachableFrom W H m.cells m.playerPos m.targetPos ∧
      (m.findPathBFS W H).path = []) ∧
    (ReachableFrom W H m.cells m.playerPos m.targetPos →
      (m.findPathBFS W H).pathFound = true) := by
  have hinv := findPathBFS_initial_inv W H m
  have hmeas : unvisitedCount W H
      (setVisited (m.resetVisited W H).cells m.playerPos.y m.playerPos.x true) +
      ([m.playerPos] : List Vector2i).length ≤ W * H + 1 := by
    simp only [List.length_singleton]
    exact Nat.add_le_add_right (unvisitedCount_le W H _) 1
  obtain ⟨hfound, hnotfound⟩ := bfsLoop_spec (W * H + 1) _ _ _ hinv hmeas
  simp only [Maze.findPathBFS]
  set r := bfsLoop W H m.targetPos (W * H + 1)
    (setVisited (m.resetVisited W H).cells m.playerPos.y m.playerPos.x true)
    [m.playerPos] (fun _ => none) with hr
  split
  · rename_i hft
    obtain ⟨hpinv, hvt, hor, hsrcv, hreach⟩ := hfound hft
    obtain ⟨l, hlen, hfacts, hrec, hhead⟩ :=
      chain_of_PInv hpinv (sdist W H m.cells m.playerPos m.targetPos)
        m.targetPos hvt hor rfl
    have hbound : sdist W H m.cells m.playerPos m.targetPos ≤ W * H :=
      chain_length_le hlen hfacts
    have hpath : reconstructLoop W r.2.1 m.playerPos (W * H + 1) m.targetPos [] = l := by
      rw [hrec (W * H + 1) [] (by omega)]
      simp
    refine ⟨fun _ => ⟨hreach, ?_, ?_, ?_⟩, fun h => by simp at h, fun _ => rfl⟩
    · simp only [hpath, List.length_reverse, hlen]
    · intro i w hw
      simp only [hpath] at hw
      have hi : i < l.length := by
        by_contra hni
        rw [List.get?_eq_none.mpr (by simp; omega)] at hw
        cases hw
      rw [List.get?_reverse (by simpa using hi)] at hw
      obtain ⟨h1, h2⟩ := hfacts _ _ hw
      refine ⟨?_, h2⟩
      rw [h1, hlen]
      rw [hlen] at hi
      omega
    · intro hne
      simp only [hpath] at hne ⊢
      rw [List.getLast?_reverse]
      apply hhead
      intro h0
      rw [← hlen] at h0
      simp [List.length_eq_zero.mp h0] at hne
  · rename_i hff
    have hf2 : r.2.2 = false := Bool.eq_false_iff.mpr hff
    have hnr := hnotfound hf2
    refine ⟨fun h => by simp [resetVisited_pathFound W H m] at h,
      fun _ => ⟨hnr, rfl⟩, fun hreach => absurd hreach hnr⟩

/-! ## C2: the BFS solution path is a shortest path -/

/-- **C2.**  For every grid state and every player/target position with
the target reachable through 4-connected non-`WALL` cells, the solution
path produced by `findPathBFS` has edge count equal to the BFS layer
distance between the player cell and the target cell: the path length is
realised by a 4-connected non-`WALL` path, and no such path is
shorter. -/
theorem bfs_shortest_path (W H : ℕ) (m : Maze)
    (hreach : ReachableFrom W H m.cells m.playerPos m.targetPos) :
    (m.findPathBFS W H).pathFound = true ∧
    PathTo W H m.cells m.playerPos m.targetPos (m.findPathBFS W H).path.length ∧
    (∀ k, PathTo W H m.cells m.playerPos m.targetPos k →
      (m.findPathBFS W H).path.length ≤ k) := by
  obtain ⟨hfound, _, hiff⟩ := findPathBFS_spec W H m
  have hpf := hiff hreach
  obtain ⟨_, hlen, _, _⟩ := hfound hpf
  refine ⟨hpf, ?_, ?_⟩
  · rw [hlen]
    exact sdist_attained hreach
  · intro k hk
    rw [hlen]
    exact sdist_le hk

/-- An all-`PATH` 5×5 state with the target one step to the player's
right. -/
def mAdj : Maze :=
  { cells := fun _ _ => { type := .PATH, visited := false },
    path := [], movePath := [], playerPos := ⟨1, 1⟩, targetPos := ⟨2, 1⟩,
    pathFound := false, autoMoving := false, currentMoveIndex := 0 }

lemma mAdj_reach : ReachableFrom 5 5 mAdj.cells mAdj.playerPos mAdj.targetPos :=
  ⟨1, .step .refl ⟨⟨1, 0⟩, by decide, rfl⟩ (by exact ⟨by decide, by decide⟩)⟩

/-- Witness for C2 at the concrete state `mAdj`. -/
theorem bfs_shortest_path_witness :
    ReachableFrom 5 5 mAdj.cells mAdj.playerPos mAdj.targetPos ∧
    ((mAdj.findPathBFS 5 5).pathFound = true ∧
     PathTo 5 5 mAdj.cells mAdj.playerPos mAdj.targetPos
       (mAdj.findPathBFS 5 5).path.length ∧
     (∀ k, PathTo 5 5 mAdj.cells mAdj.playerPos mAdj.targetPos k →
       (mAdj.findPathBFS 5 5).path.length ≤ k)) :=
  ⟨mAdj_reach, bfs_shortest_path 5 5 mAdj mAdj_reach⟩

/-! ## C8: the auto-move animation walks the whole solution path -/

/-- The state after `k` calls of `autoMoveStep` (each call's state
component). -/
def stepIter (m : Maze) : ℕ → Maze
  | 0 => m
  | k + 1 => (stepIter m k).autoMoveStep.1

lemma prepareAutoMove_found (W H : ℕ) (m : Maze)
    (h : (m.findPathBFS W H).pathFound = true) :
    m.prepareAutoMove W H =
      { m.findPathBFS W H with
        autoMoving := true, currentMoveIndex := 0,
        movePath := (m.findPathBFS W H).playerPos :: (m.findPathBFS W H).path } := by
  simp only [Maze.prepareAutoMove, if_pos h]

lemma autoMoveStep_halt (m : Maze) (h : m.autoMoving = false) :
    m.autoMoveStep = ({ m with autoMoving := false }, false) := by
  have hguard : ¬m.autoMoving = true ∨
      (m.movePath.length + (SIZE_T_MOD - 1)) % SIZE_T_MOD ≤ m.currentMoveIndex :=
    Or.inl (by rw [h]; simp)
  simp only [Maze.autoMoveStep, if_pos hguard]

lemma size_t_limit (len : ℕ) (h1 : 1 ≤ len) (h2 : len < SIZE_T_MOD) :
    (len + (SIZE_T_MOD - 1)) % SIZE_T_MOD = len - 1 := by
  unfold SIZE_T_MOD at *
  omega

lemma autoMoveStep_advance (m : Maze) (h1 : m.autoMoving = true)
    (hlen : m.movePath.length < SIZE_T_MOD)
    (h2 : m.currentMoveIndex + 1 < m.movePath.length) :
    m.autoMoveStep.2 = true ∧
    m.autoMoveStep.1.currentMoveIndex = m.currentMoveIndex + 1 ∧
    m.autoMoveStep.1.playerPos = m.movePath.getD (m.currentMoveIndex + 1) ⟨0, 0⟩ ∧
    m.autoMoveStep.1.movePath = m.movePath ∧
    m.autoMoveStep.1.targetPos = m.targetPos ∧
    (m.autoMoveStep.1.autoMoving =
      !decide (m.movePath.getD (m.currentMoveIndex + 1) ⟨0, 0⟩ = m.targetPos)) := by
  have hlim : (m.movePath.length + (SIZE_T_MOD - 1)) % SIZE_T_MOD =
      m.movePath.length - 1 := size_t_limit _ (by omega) hlen
  have hguard : ¬(¬m.autoMoving = true ∨
      (m.movePath.length + (SIZE_T_MOD - 1)) % SIZE_T_MOD ≤ m.currentMoveIndex) := by
    rw [not_or, hlim, h1]
    exact ⟨by simp, by omega⟩
  simp only [Maze.autoMoveStep, if_neg hguard]
  by_cases ht : m.movePath.getD (m.currentMoveIndex + 1) ⟨0, 0⟩ = m.targetPos
  · rw [List.getD_eq_getElem?_getD] at ht
    simp [ht]
  · rw [List.getD_eq_getElem?_getD] at ht
    simp [ht, h1]

lemma path_entries_le {W H : ℕ} {g0 : Grid} {src : Vector2i} {l : List Vector2i}
    (hfacts : ∀ i w, l.get? i = some w →
      sdist W H g0 src w = i + 1 ∧ walkable W H g0 w) :
    l.length ≤ W * H := by
  have hnodup : l.Nodup := by
    rw [List.nodup_iff_get?_ne_get?]
    intro i j hij hj hEq
    have hi : i < l.length := by omega
    have hwi : l.get? i = some (l.get ⟨i, hi⟩) := List.get?_eq_get hi
    have hwj : l.get? j = some (l.get ⟨i, hi⟩) := by rw [← hEq]; exact hwi
    have h1 := (hfacts i _ hwi).1
    have h2 := (hfacts j _ hwj).1
    omega
  have hmem : ∀ q ∈ l.map (fun v => (v.x, v.y)), q ∈ cellBox W H := by
    intro q hq
    obtain ⟨v, hv, hveq⟩ := List.mem_map.mp hq
    obtain ⟨i, hi⟩ := List.mem_iff_get?.mp hv
    rw [← hveq]
    exact mem_cellBox.mpr (hfacts i v hi).2.1
  have hmapnodup : (l.map (fun v => (v.x, v.y))).Nodup := by
    refine hnodup.map ?_
    intro a b hab
    cases a; cases b
    simpa using hab
  have hsub : (l.map (fun v => (v.x, v.y))).toFinset ⊆ cellBox W H :=
    fun q hq => hmem q (List.mem_toFinset.mp hq)
  have hcard := Finset.card_le_card hsub
  rw [List.toFinset_card_of_nodup hmapnodup, List.length_map, cellBox_card] at hcard
  exact hcard

/-- **C8, counterexample.**  When the player already stands on the
target, `prepareAutoMove` still succeeds (`pathFound = true`) with a
solution path of length `n = 0`, but after `n = 0` calls of
`autoMoveStep` the animation flag `autoMoving` is still `true` — it is
only cleared by the following (`false`-returning) call.  So the claim's
"after which … `autoMoving` is false" fails for `n = 0`. -/
theorem autoMove_zero_counterexample :
    (mSame.findPathBFS 5 5).pathFound = true ∧
    (mSame.findPathBFS 5 5).path.length = 0 ∧
    (stepIter (mSame.prepareAutoMove 5 5) 0).autoMoving = true := by
  refine ⟨by decide, by decide, by decide⟩

/-- **C8, amended.**  After `prepareAutoMove` succeeds on a solvable
maze with a *non-empty* solution path of length `n` (player not already
on the target), repeated `autoMoveStep` calls return `true` for exactly
`n` consecutive calls; after them the player stands on the target and
`autoMoving` is `false`, and every further call returns `false`.  (When
the player already stands on the target, `n = 0`, `prepareAutoMove`
still sets `autoMoving := true` and the first call returns `false` and
clears it — see the counterexample.)  The hypothesis
`W * H + 1 < 2^64` mirrors the `size_t` range of the vector length. -/
theorem autoMove_completes (W H : ℕ) (m : Maze)
    (hfound : (m.findPathBFS W H).pathFound = true)
    (hne : m.playerPos ≠ m.targetPos)
    (hsize : W * H + 1 < SIZE_T_MOD) :
    (∀ k < (m.findPathBFS W H).path.length,
      (stepIter (m.prepareAutoMove W H) k).autoMoveStep.2 = true) ∧
    (stepIter (m.prepareAutoMove W H)
      (m.findPathBFS W H).path.length).playerPos = m.targetPos ∧
    (stepIter (m.prepareAutoMove W H)
      (m.findPathBFS W H).path.length).autoMoving = false ∧
    (∀ k, (m.findPathBFS W H).path.length ≤ k →
      (stepIter (m.prepareAutoMove W H) k).autoMoveStep.2 = false) := by
  obtain ⟨hfs, _, _⟩ := findPathBFS_spec W H m
  obtain ⟨hreach, hlenp, hidx, hlast⟩ := hfs hfound
  have hn1 : 1 ≤ (m.findPathBFS W H).path.length := by
    rw [hlenp]
    rcases Nat.eq_zero_or_pos (sdist W H m.cells m.playerPos m.targetPos) with h0 | h1
    · exfalso
      have hat := sdist_attained hreach
      rw [h0] at hat
      exact hne hat.eq_src_of_zero.symm
    · exact h1
  have hnb : (m.findPathBFS W H).path.length ≤ W * H := path_entries_le hidx
  have hm1 : m.prepareAutoMove W H =
      { m.findPathBFS W H with
        autoMoving := true, currentMoveIndex := 0,
        movePath := m.playerPos :: (m.findPathBFS W H).path } := by
    rw [prepareAutoMove_found W H m hfound, findPathBFS_playerPos]
  have hplast : (m.findPathBFS W H).path.get?
      ((m.findPathBFS W H).path.length - 1) = some m.targetPos := by
    have hpne : (m.findPathBFS W H).path ≠ [] := by
      intro h
      rw [h] at hn1
      simp at hn1
    have := hlast hpne
    rw [List.getLast?_eq_get?] at this
    exact this
  have hQ : ∀ k, k ≤ (m.findPathBFS W H).path.length →
      (stepIter (m.prepareAutoMove W H) k).currentMoveIndex = k ∧
      (stepIter (m.prepareAutoMove W H) k).movePath =
        m.playerPos :: (m.findPathBFS W H).path ∧
      (stepIter (m.prepareAutoMove W H) k).targetPos = m.targetPos ∧
      (stepIter (m.prepareAutoMove W H) k).playerPos =
        (m.playerPos :: (m.findPathBFS W H).path).getD k ⟨0, 0⟩ ∧
      (k < (m.findPathBFS W H).path.length →
        (stepIter (m.prepareAutoMove W H) k).autoMoving = true) ∧
      (k = (m.findPathBFS W H).path.length →
        (stepIter (m.prepareAutoMove W H) k).autoMoving = false) := by
    intro k
    induction k with
    | zero =>
      intro _
      rw [stepIter, hm1]
      exact ⟨rfl, rfl, findPathBFS_targetPos W H m,
        by rw [List.getD_cons_zero]; exact findPathBFS_playerPos W H m,
        fun _ => rfl, fun h0 => absurd h0.symm (by omega)⟩
    | succ k ih =>
      intro hk1
      have hk : k < (m.findPathBFS W H).path.length := by omega
      obtain ⟨hidxk, hmp, htp, hpp, hat, _⟩ := ih (by omega)
      have hlenA : (stepIter (m.prepareAutoMove W H) k).movePath.length < SIZE_T_MOD := by
        rw [hmp]
        simp only [List.length_cons]
        omega
      have h2A : (stepIter (m.prepareAutoMove W H) k).currentMoveIndex + 1 <
          (stepIter (m.prepareAutoMove W H) k).movePath.length := by
        rw [hidxk, hmp]
        simp only [List.length_cons]
        omega
      obtain ⟨hret, hidx2, hpp2, hmp2, htp2, hauto2⟩ :=
        autoMoveStep_advance _ (hat hk) hlenA h2A
      obtain ⟨w, hwk⟩ : ∃ w, (m.findPathBFS W H).path.get? k = some w :=
        ⟨(m.findPathBFS W H).path.get ⟨k, hk⟩, List.get?_eq_get hk⟩
      have hgd : (stepIter (m.prepareAutoMove W H) k).movePath.getD
          ((stepIter (m.prepareAutoMove W H) k).currentMoveIndex + 1) ⟨0, 0⟩ = w := by
        rw [hidxk, hmp, List.getD_cons_succ, List.getD_eq_getElem?_getD,
          ← List.get?_eq_getElem?, hwk]
        rfl
      rw [stepIter]
      refine ⟨by rw [hidx2, hidxk], by rw [hmp2, hmp], by rw [htp2, htp], ?_, ?_, ?_⟩
      · rw [hpp2, hgd, List.getD_cons_succ, List.getD_eq_getElem?_getD,
          ← List.get?_eq_getElem?, hwk]
        rfl
      · intro hklt
        rw [hauto2, hgd, htp]
        have hwne : w ≠ m.targetPos := by
          intro he
          have hsw := (hidx k w hwk).1
          rw [he, ← hlenp] at hsw
          omega
        simp [hwne]
      · intro hkeq
        rw [hauto2, hgd, htp]
        have hweq : w = m.targetPos := by
          have : k = (m.findPathBFS W H).path.length - 1 := by omega
          rw [this] at hwk
          rw [hplast] at hwk
          exact ((Option.some.injEq _ _).mp hwk).symm
        simp [hweq]
  refine ⟨?_, ?_, ?_, ?_⟩
  · intro k hk
    obtain ⟨hidxk, hmp, _, _, hat, _⟩ := hQ k (by omega)
    have hlenA : (stepIter (m.prepareAutoMove W H) k).movePath.length < SIZE_T_MOD := by
      rw [hmp]; simp only [List.length_cons]; omega
    have h2A : (stepIter (m.prepareAutoMove W H) k).currentMoveIndex + 1 <
        (stepIter (m.prepareAutoMove W H) k).movePath.length := by
      rw [hidxk, hmp]; simp only [List.length_cons]; omega
    exact (autoMoveStep_advance _ (hat hk) hlenA h2A).1
  · obtain ⟨_, _, _, hpp, _, _⟩ := hQ (m.findPathBFS W H).path.length le_rfl
    rw [hpp]
    have hcons : (m.playerPos :: (m.findPathBFS W H).path).getD
        (m.findPathBFS W H).path.length ⟨0, 0⟩ = m.targetPos := by
      cases hplen : (m.findPathBFS W H).path.length with
      | zero => omega
      | succ j =>
        rw [List.getD_cons_succ, List.getD_eq_getElem?_getD, ← List.get?_eq_getElem?]
        have : j = (m.findPathBFS W H).path.length - 1 := by omega
        rw [this, hplast]
        rfl
    exact hcons
  · exact (hQ (m.findPathBFS W H).path.length le_rfl).2.2.2.2.2 rfl
  · intro k hk
    have hoff : ∀ j, (stepIter (m.prepareAutoMove W H)
        ((m.findPathBFS W H).path.length + j)).autoMoving = false := by
      intro j
      induction j with
      | zero => exact (hQ (m.findPathBFS W H).path.length le_rfl).2.2.2.2.2 rfl
      | succ j ihj =>
        have harith : (m.findPathBFS W H).path.length + (j + 1) =
            ((m.findPathBFS W H).path.length + j) + 1 := by omega
        rw [harith, stepIter, autoMoveStep_halt _ ihj]
    have hkoff : (stepIter (m.prepareAutoMove W H) k).autoMoving = false := by
      have : k = (m.findPathBFS W H).path.length +
          (k - (m.findPathBFS W H).path.length) := by omega
      rw [this]
      exact hoff _
    rw [autoMoveStep_halt _ hkoff]

/-- Witness for C8 (amended) at the concrete solvable state `mAdj`,
whose solution path has length 1. -/
theorem autoMove_completes_witness :
    ((mAdj.findPathBFS 5 5).pathFound = true ∧
     mAdj.playerPos ≠ mAdj.targetPos ∧ 5 * 5 + 1 < SIZE_T_MOD) ∧
    ((∀ k < (mAdj.findPathBFS 5 5).path.length,
        (stepIter (mAdj.prepareAutoMove 5 5) k).autoMoveStep.2 = true) ∧
     (stepIter (mAdj.prepareAutoMove 5 5)
        (mAdj.findPathBFS 5 5).path.length).playerPos = mAdj.targetPos ∧
     (stepIter (mAdj.prepareAutoMove 5 5)
        (mAdj.findPathBFS 5 5).path.length).autoMoving = false ∧
     (∀ k, (mAdj.findPathBFS 5 5).path.length ≤ k →
        (stepIter (mAdj.prepareAutoMove 5 5) k).autoMoveStep.2 = false)) :=
  ⟨⟨by decide, by decide, by decide⟩,
    autoMove_completes 5 5 mAdj (by decide) (by decide) (by decide)⟩

/-! ## C4: uniqueness of the Player and Target tags -/

lemma setCellType_same (g : Grid) (y x : Int) (t : CellType) :
    ((setCellType g y x t) y x).type = t := by
  simp [setCellType]

lemma setCellType_other (g : Grid) (y x : Int) (t : CellType) (Y X : Int)
    (h : ¬(Y = y ∧ X = x)) : (setCellType g y x t) Y X = g Y X := by
  simp [setCellType, h]

lemma vne_iff {u v : Vector2i} : u ≠ v ↔ ¬(u.y = v.y ∧ u.x = v.x) := by
  constructor
  · intro h hc
    exact h (vec_ext hc.2 hc.1)
  · intro h he
    subst he
    exact h ⟨rfl, rfl⟩

/-- A state in which exactly the session's bookkeeping holds: the player
tag sits (only) at `playerPos`, any target tag sits at `targetPos`,
`targetPos` is the fixed corner, and the animation path stays in
bounds. -/
structure OneInv (W H : ℕ) (m : Maze) : Prop where
  pIn : inBp W H m.playerPos
  pAt : (m.cells m.playerPos.y m.playerPos.x).type = .PLAYER
  pUniq : ∀ v, inBp W H v → v ≠ m.playerPos → (m.cells v.y v.x).type ≠ .PLAYER
  tAt : ∀ v, inBp W H v → (m.cells v.y v.x).type = .TARGET → v = m.targetPos
  tFix : m.targetPos = ⟨(W : ℤ) - 2, (H : ℤ) - 2⟩
  mpIn : ∀ v ∈ m.movePath, inBp W H v

/-- An all-walls-and-paths grid (what the generator produces). -/
def NoSpecialCells (W H : ℕ) (m : Maze) : Prop :=
  ∀ y x : Int, isValidPosition W H x y →
    (m.cells y x).type = .WALL ∨ (m.cells y x).type = .PATH

lemma countType_eq_one (W H : ℕ) (g : Grid) (t : CellType) (v : Vector2i)
    (hin : inBp W H v) (hv : (g v.y v.x).type = t)
    (huniq : ∀ u, inBp W H u → (g u.y u.x).type = t → u = v) :
    countType W H g t = 1 := by
  unfold countType
  have hset : (cellBox W H).filter (fun p => (g p.2 p.1).type = t) = {(v.x, v.y)} := by
    ext p
    simp only [Finset.mem_filter, Finset.mem_singleton]
    constructor
    · intro ⟨hp1, hp2⟩
      have hu := huniq ⟨p.1, p.2⟩ (mem_cellBox.mp (by rwa [Prod.mk.eta])) hp2
      have hx : p.1 = v.x := congrArg Vector2i.x hu
      have hy : p.2 = v.y := congrArg Vector2i.y hu
      cases p
      simp_all
    · intro hp
      subst hp
      exact ⟨mem_cellBox.mpr hin, hv⟩
  rw [hset, Finset.card_singleton]

lemma countType_le_one (W H : ℕ) (g : Grid) (t : CellType) (v : Vector2i)
    (huniq : ∀ u, inBp W H u → (g u.y u.x).type = t → u = v) :
    countType W H g t ≤ 1 := by
  unfold countType
  have hsub : (cellBox W H).filter (fun p => (g p.2 p.1).type = t) ⊆ {(v.x, v.y)} := by
    intro p hp
    obtain ⟨hp1, hp2⟩ := Finset.mem_filter.mp hp
    have hu := huniq ⟨p.1, p.2⟩ (mem_cellBox.mp (by rwa [Prod.mk.eta])) hp2
    have hx : p.1 = v.x := congrArg Vector2i.x hu
    have hy : p.2 = v.y := congrArg Vector2i.y hu
    cases p
    simp_all
  calc ((cellBox W H).filter fun p => (g p.2 p.1).type = t).card
      ≤ ({(v.x, v.y)} : Finset (Int × Int)).card := Finset.card_le_card hsub
    _ = 1 := Finset.card_singleton _

/-- Moving the player tag from `playerPos` to an in-bounds `npos`
preserves player-uniqueness and target-locatedness. -/
lemma oneInv_moveCells {W H : ℕ} {m : Maze} (inv : OneInv W H m) (npos : Vector2i) :
    ((setCellType (setCellType m.cells m.playerPos.y m.playerPos.x .PATH)
        npos.y npos.x .PLAYER) npos.y npos.x).type = .PLAYER ∧
    (∀ v, inBp W H v → v ≠ npos →
      ((setCellType (setCellType m.cells m.playerPos.y m.playerPos.x .PATH)
        npos.y npos.x .PLAYER) v.y v.x).type ≠ .PLAYER) ∧
    (∀ v, inBp W H v →
      ((setCellType (setCellType m.cells m.playerPos.y m.playerPos.x .PATH)
        npos.y npos.x .PLAYER) v.y v.x).type = .TARGET → v = m.targetPos) := by
  refine ⟨setCellType_same _ _ _ _, ?_, ?_⟩
  · intro v hvin hvne
    rw [setCellType_other _ _ _ _ _ _ (vne_iff.mp hvne)]
    by_cases hvp : v = m.playerPos
    · subst hvp
      rw [show ((setCellType m.cells m.playerPos.y m.playerPos.x .PATH)
          m.playerPos.y m.playerPos.x).type = .PATH from setCellType_same _ _ _ _]
      simp
    · rw [setCellType_other _ _ _ _ _ _ (vne_iff.mp hvp)]
      exact inv.pUniq v hvin hvp
  · intro v hvin hT
    by_cases hvn : v = npos
    · subst hvn
      rw [setCellType_same] at hT
      cases hT
    · rw [setCellType_other _ _ _ _ _ _ (vne_iff.mp hvn)] at hT
      by_cases hvp : v = m.playerPos
      · subst hvp
        rw [show ((setCellType m.cells m.playerPos.y m.playerPos.x .PATH)
            m.playerPos.y m.playerPos.x).type = .PATH from setCellType_same _ _ _ _] at hT
        cases hT
      · rw [setCellType_other _ _ _ _ _ _ (vne_iff.mp hvp)] at hT
        exact inv.tAt v hvin hT

lemma findPathBFS_types (W H : ℕ) (m : Maze) (y x : Int) :
    ((m.findPathBFS W H).cells y x).type = (m.cells y x).type := by
  simp only [Maze.findPathBFS]
  split <;>
  · dsimp only
    rw [bfsLoop_types, setVisited_apply_type, resetVisited_cells]
    dsimp only
    split <;> rfl

lemma oneInv_movePlayer {W H : ℕ} {m : Maze} (inv : OneInv W H m) (dx dy : Int) :
    OneInv W H (m.movePlayer W H dx dy).1 := by
  simp only [Maze.movePlayer]
  split
  · rename_i hc
    constructor
    · exact hc.1
    · exact (oneInv_moveCells inv ⟨m.playerPos.x + dx, m.playerPos.y + dy⟩).1
    · exact (oneInv_moveCells inv ⟨m.playerPos.x + dx, m.playerPos.y + dy⟩).2.1
    · exact (oneInv_moveCells inv ⟨m.playerPos.x + dx, m.playerPos.y + dy⟩).2.2
    · exact inv.tFix
    · exact inv.mpIn
  · exact inv

lemma oneInv_findPathBFS {W H : ℕ} {m : Maze} (inv : OneInv W H m) :
    OneInv W H (m.findPathBFS W H) := by
  constructor
  · rw [findPathBFS_playerPos]; exact inv.pIn
  · rw [findPathBFS_playerPos, findPathBFS_types]; exact inv.pAt
  · intro v hv hne
    rw [findPathBFS_playerPos] at hne
    rw [findPathBFS_types]
    exact inv.pUniq v hv hne
  · intro v hv hT
    rw [findPathBFS_types] at hT
    rw [findPathBFS_targetPos]
    exact inv.tAt v hv hT
  · rw [findPathBFS_targetPos]; exact inv.tFix
  · rw [findPathBFS_movePath]; exact inv.mpIn

lemma prepareAutoMove_notfound (W H : ℕ) (m : Maze)
    (h : ¬(m.findPathBFS W H).pathFound = true) :
    m.prepareAutoMove W H = m.findPathBFS W H := by
  simp only [Maze.prepareAutoMove, if_neg h]

lemma findPathBFS_path_inB (W H : ℕ) (m : Maze) :
    ∀ v ∈ (m.findPathBFS W H).path, inBp W H v := by
  intro v hv
  obtain ⟨hfound, hnot, _⟩ := findPathBFS_spec W H m
  rcases Bool.eq_false_or_eq_true (m.findPathBFS W H).pathFound with hb | hb
  swap
  · rw [(hnot hb).2] at hv
    cases hv
  · obtain ⟨_, _, hidx, _⟩ := hfound hb
    obtain ⟨i, hi⟩ := List.mem_iff_get?.mp hv
    exact (hidx i v hi).2.1

lemma oneInv_prepareAutoMove {W H : ℕ} {m : Maze} (inv : OneInv W H m) :
    OneInv W H (m.prepareAutoMove W H) := by
  have hF := oneInv_findPathBFS (W := W) (H := H) (m := m) inv
  by_cases hpf : (m.findPathBFS W H).pathFound = true
  · rw [prepareAutoMove_found W H m hpf]
    constructor
    · exact hF.pIn
    · exact hF.pAt
    · exact hF.pUniq
    · exact hF.tAt
    · exact hF.tFix
    · intro v hv
      rcases List.mem_cons.mp hv with h | h
      · rw [h]; exact hF.pIn
      · exact findPathBFS_path_inB W H m v h
  · rw [prepareAutoMove_notfound W H m hpf]
    exact hF

lemma oneInv_autoMoveStep {W H : ℕ} {m : Maze} (inv : OneInv W H m)
    (hW : 1 ≤ W) (hH : 1 ≤ H) :
    OneInv W H m.autoMoveStep.1 := by
  have hnpos : ∀ idx : ℕ, inBp W H (m.movePath.getD idx ⟨0, 0⟩) := by
    intro idx
    rcases Nat.lt_or_ge idx m.movePath.length with hlt | hge
    · have : m.movePath.getD idx ⟨0, 0⟩ ∈ m.movePath := by
        rw [List.getD_eq_getElem?_getD, List.getElem?_eq_getElem hlt]
        exact List.getElem_mem hlt
      exact inv.mpIn _ this
    · rw [List.getD_eq_getElem?_getD, List.getElem?_eq_none hge]
      refine ⟨le_rfl, ?_, le_rfl, ?_⟩ <;> · simp; omega
  simp only [Maze.autoMoveStep]
  split
  · exact { inv with }
  · have hmain : OneInv W H
        { m with
          currentMoveIndex := m.currentMoveIndex + 1,
          playerPos := m.movePath.getD (m.currentMoveIndex + 1) ⟨0, 0⟩,
          cells := setCellType
            (setCellType m.cells m.playerPos.y m.playerPos.x .PATH)
            (m.movePath.getD (m.currentMoveIndex + 1) ⟨0, 0⟩).y
            (m.movePath.getD (m.currentMoveIndex + 1) ⟨0, 0⟩).x .PLAYER } := by
      constructor
      · exact hnpos _
      · exact (oneInv_moveCells inv _).1
      · exact (oneInv_moveCells inv _).2.1
      · exact (oneInv_moveCells inv _).2.2
      · exact inv.tFix
      · exact inv.mpIn
    split
    · exact { hmain with }
    · exact hmain

lemma wall_path_pres_setCellType {W H : ℕ} {g : Grid}
    (hg : ∀ y x : Int, isValidPosition W H x y →
      (g y x).type = .WALL ∨ (g y x).type = .PATH) (a b : Int) :
    ∀ y x : Int, isValidPosition W H x y →
      ((setCellType g a b .PATH) y x).type = .WALL ∨
      ((setCellType g a b .PATH) y x).type = .PATH := by
  intro y x hv
  by_cases hab : y = a ∧ x = b
  · right
    simp [setCellType, hab]
  · rw [setCellType_other _ _ _ _ _ _ hab]
    exact hg y x hv

lemma wall_path_pres_setVisited {W H : ℕ} {g : Grid}
    (hg : ∀ y x : Int, isValidPosition W H x y →
      (g y x).type = .WALL ∨ (g y x).type = .PATH) (a b : Int) (c : Bool) :
    ∀ y x : Int, isValidPosition W H x y →
      ((setVisited g a b c) y x).type = .WALL ∨
      ((setVisited g a b c) y x).type = .PATH := by
  intro y x hv
  rw [setVisited_apply_type]
  exact hg y x hv

lemma genLoop_wall_path (W H : ℕ) (choice : ℕ → ℕ) :
    ∀ (fuel : ℕ) (g : Grid) (stack : List Vector2i) (step : ℕ),
    (∀ y x : Int, isValidPosition W H x y →
      (g y x).type = .WALL ∨ (g y x).type = .PATH) →
    ∀ y x : Int, isValidPosition W H x y →
      ((genLoop W H choice fuel g stack step) y x).type = .WALL ∨
      ((genLoop W H choice fuel g stack step) y x).type = .PATH := by
  intro fuel
  induction fuel with
  | zero => exact fun g stack step hg => hg
  | succ fuel ih =>
    intro g stack step hg
    cases stack with
    | nil => exact hg
    | cons cur rest =>
      simp only [genLoop]
      split
      · exact ih _ _ _ hg
      · exact ih _ _ _ (wall_path_pres_setVisited
          (wall_path_pres_setCellType (wall_path_pres_setCellType hg _ _) _ _) _ _ _)

lemma generateMazeGrid_wall_path (W H : ℕ) (choice : ℕ → ℕ) (g0 : Grid) :
    ∀ y x : Int, isValidPosition W H x y →
      ((generateMazeGrid W H choice g0) y x).type = .WALL ∨
      ((generateMazeGrid W H choice g0) y x).type = .PATH := by
  apply genLoop_wall_path
  refine wall_path_pres_setVisited
    (wall_path_pres_setCellType (wall_path_pres_setCellType ?_ _ _) _ _) _ _ _
  intro Y X hv
  dsimp only
  rw [if_pos hv]
  exact Or.inl rfl

lemma reset_cleared_type {W H : ℕ} (m : Maze) (y x : Int)
    (h : isValidPosition W H x y) :
    (((fun y x => if isValidPosition W H x y then
      ({ type := if (m.cells y x).type = .PLAYER then .PATH else (m.cells y x).type,
         visited := false } : Cell) else m.cells y x) : Grid) y x).type =
    if (m.cells y x).type = .PLAYER then .PATH else (m.cells y x).type := by
  dsimp only
  rw [if_pos h]

lemma oneInv_reset {W H : ℕ} (hW : 4 ≤ W) (hH : 4 ≤ H) (m : Maze)
    (h : OneInv W H m ∨ NoSpecialCells W H m) :
    OneInv W H (m.reset W H) ∧
    countType W H (m.reset W H).cells .PLAYER = 1 ∧
    countType W H (m.reset W H).cells .TARGET = 1 := by
  have hne_corner : ¬((1 : ℤ) = (H : ℤ) - 2 ∧ (1 : ℤ) = (W : ℤ) - 2) := by
    intro ⟨h1, _⟩
    omega
  have hP : ((m.reset W H).cells 1 1).type = .PLAYER := by
    show ((setCellType _ ((H : ℤ) - 2) ((W : ℤ) - 2) .TARGET) 1 1).type = .PLAYER
    rw [setCellType_other _ _ _ _ _ _ hne_corner]
    exact setCellType_same _ _ _ _
  have hT : ((m.reset W H).cells ((H : ℤ) - 2) ((W : ℤ) - 2)).type = .TARGET :=
    setCellType_same _ _ _ _
  have hOther : ∀ v : Vector2i, inBp W H v → ¬(v.y = (H : ℤ) - 2 ∧ v.x = (W : ℤ) - 2) →
      ¬(v.y = 1 ∧ v.x = 1) →
      ((m.reset W H).cells v.y v.x).type =
        (if (m.cells v.y v.x).type = .PLAYER then .PATH else (m.cells v.y v.x).type) := by
    intro v hv hc hp
    show ((setCellType _ ((H : ℤ) - 2) ((W : ℤ) - 2) .TARGET) v.y v.x).type = _
    rw [setCellType_other _ _ _ _ _ _ hc, setCellType_other _ _ _ _ _ _ hp]
    exact reset_cleared_type m v.y v.x hv
  have hPuniq : ∀ v, inBp W H v → v ≠ (⟨1, 1⟩ : Vector2i) →
      ((m.reset W H).cells v.y v.x).type ≠ .PLAYER := by
    intro v hv hvne
    by_cases hc : v.y = (H : ℤ) - 2 ∧ v.x = (W : ℤ) - 2
    · have hveq : v = (⟨(W : ℤ) - 2, (H : ℤ) - 2⟩ : Vector2i) := vec_ext hc.2 hc.1
      rw [hveq]
      rw [show (⟨(W : ℤ) - 2, (H : ℤ) - 2⟩ : Vector2i).y = (H : ℤ) - 2 from rfl,
        show (⟨(W : ℤ) - 2, (H : ℤ) - 2⟩ : Vector2i).x = (W : ℤ) - 2 from rfl, hT]
      simp
    · rw [hOther v hv hc (vne_iff.mp hvne)]
      split
      · simp
      · rename_i hnp
        exact hnp
  have hTuniq : ∀ v, inBp W H v → ((m.reset W H).cells v.y v.x).type = .TARGET →
      v = (⟨(W : ℤ) - 2, (H : ℤ) - 2⟩ : Vector2i) := by
    intro v hv hvT
    by_cases hc : v.y = (H : ℤ) - 2 ∧ v.x = (W : ℤ) - 2
    · exact vec_ext hc.2 hc.1
    · exfalso
      by_cases hp : v.y = 1 ∧ v.x = 1
      · have hveq : v = (⟨1, 1⟩ : Vector2i) := vec_ext hp.2 hp.1
        rw [hveq] at hvT
        rw [show (⟨1, 1⟩ : Vector2i).y = (1 : ℤ) from rfl,
          show (⟨1, 1⟩ : Vector2i).x = (1 : ℤ) from rfl, hP] at hvT
        cases hvT
      · rw [hOther v hv hc hp] at hvT
        have hmT : (m.cells v.y v.x).type = .TARGET := by
          revert hvT
          split
          · intro hvT; cases hvT
          · exact fun hvT => hvT
        rcases h with hInv | hNS
        · have := hInv.tAt v hv hmT
          rw [hInv.tFix] at this
          exact hc ⟨congrArg Vector2i.y this, congrArg Vector2i.x this⟩
        · rcases hNS v.y v.x hv with hw | hw <;> rw [hmT] at hw <;> cases hw
  have hin11 : inBp W H (⟨1, 1⟩ : Vector2i) := by
    refine ⟨by norm_num, by push_cast; omega, by norm_num, by push_cast; omega⟩
  have hinC : inBp W H (⟨(W : ℤ) - 2, (H : ℤ) - 2⟩ : Vector2i) := by
    refine ⟨by push_cast; omega, by push_cast; omega, by push_cast; omega, by push_cast; omega⟩
  refine ⟨⟨hin11, hP, hPuniq, hTuniq, rfl, fun v hv => absurd hv (List.not_mem_nil _)⟩,
    ?_, ?_⟩
  · exact countType_eq_one W H _ _ ⟨1, 1⟩ hin11 hP
      (fun u hu hut => by
        by_contra hune
        exact hPuniq u hu hune hut)
  · exact countType_eq_one W H _ _ ⟨(W : ℤ) - 2, (H : ℤ) - 2⟩ hinC hT hTuniq

lemma oneInv_generateNewMaze {W H : ℕ} (hW : 4 ≤ W) (hH : 4 ≤ H)
    (choice : ℕ → ℕ) (m : Maze) :
    OneInv W H (m.generateNewMaze W H choice) ∧
    countType W H (m.generateNewMaze W H choice).cells .PLAYER = 1 ∧
    countType W H (m.generateNewMaze W H choice).cells .TARGET = 1 := by
  apply oneInv_reset hW hH
  exact Or.inr (fun y x hv => generateMazeGrid_wall_path W H choice m.cells y x hv)

/-- A plausible end-game state on the 21×21 grid: the player stands
directly left of the target at the standard corner, every other interior
cell is open. -/
def mNear : Maze :=
  { cells := fun y x =>
      if y = 19 ∧ x = 19 then { type := .TARGET, visited := false }
      else if y = 19 ∧ x = 18 then { type := .PLAYER, visited := false }
      else if 1 ≤ x ∧ x ≤ 19 ∧ 1 ≤ y ∧ y ≤ 19 then { type := .PATH, visited := false }
      else { type := .WALL, visited := false },
    path := [], movePath := [], playerPos := ⟨18, 19⟩, targetPos := ⟨19, 19⟩,
    pathFound := false, autoMoving := false, currentMoveIndex := 0 }

/-- **C4, counterexample.**  `mNear` satisfies the claimed invariant
(exactly one `PLAYER` and exactly one `TARGET` cell), and the legal move
`movePlayer(1,0)` succeeds — but afterwards the grid holds *zero*
`TARGET` cells: the player tag overwrites the target tag, so the
"exactly one Target" invariant is not preserved by `movePlayer`. -/
theorem target_overwritten_counterexample :
    countType 21 21 mNear.cells .PLAYER = 1 ∧
    countType 21 21 mNear.cells .TARGET = 1 ∧
    (mNear.movePlayer 21 21 1 0).2 = true ∧
    countType 21 21 (mNear.movePlayer 21 21 1 0).1.cells .PLAYER = 1 ∧
    countType 21 21 (mNear.movePlayer 21 21 1 0).1.cells .TARGET = 0 := by
  refine ⟨by decide, by decide, by decide, by decide, by decide⟩

/-- **C4, amended.**  After `reset` (from any state the session can be
in: either the bookkeeping invariant `OneInv` holds, or the grid is a
freshly generated walls-and-paths grid) the 21×21 grid contains exactly
one `PLAYER` and exactly one `TARGET` cell, and likewise after
`generateNewMaze`.  Every operation preserves `OneInv` — exactly one
`PLAYER` cell (at `playerPos`) and *at most* one `TARGET` cell (only at
`targetPos`).  Exactly-one-`TARGET` is *not* preserved: the `TARGET`
tag is overwritten when the player steps onto the target cell (see the
counterexample) and only restored by the next `reset`. -/
theorem one_player_at_most_one_target (choice : ℕ → ℕ) (m : Maze) (dx dy : Int) :
    ((OneInv 21 21 m ∨ NoSpecialCells 21 21 m) →
      OneInv 21 21 (m.reset 21 21) ∧
      countType 21 21 (m.reset 21 21).cells .PLAYER = 1 ∧
      countType 21 21 (m.reset 21 21).cells .TARGET = 1) ∧
    (OneInv 21 21 (m.generateNewMaze 21 21 choice) ∧
      countType 21 21 (m.generateNewMaze 21 21 choice).cells .PLAYER = 1 ∧
      countType 21 21 (m.generateNewMaze 21 21 choice).cells .TARGET = 1) ∧
    (OneInv 21 21 m → OneInv 21 21 (m.movePlayer 21 21 dx dy).1) ∧
    (OneInv 21 21 m → OneInv 21 21 (m.findPathBFS 21 21)) ∧
    (OneInv 21 21 m → OneInv 21 21 (m.prepareAutoMove 21 21)) ∧
    (OneInv 21 21 m → OneInv 21 21 m.autoMoveStep.1) ∧
    (OneInv 21 21 m → countType 21 21 m.cells .PLAYER = 1) ∧
    (OneInv 21 21 m → countType 21 21 m.cells .TARGET ≤ 1) := by
  refine ⟨fun h => oneInv_reset (by omega) (by omega) m h,
    oneInv_generateNewMaze (by omega) (by omega) choice m,
    fun inv => oneInv_movePlayer inv dx dy,
    fun inv => oneInv_findPathBFS inv,
    fun inv => oneInv_prepareAutoMove inv,
    fun inv => oneInv_autoMoveStep inv (by omega) (by omega),
    fun inv => ?_, fun inv => ?_⟩
  · exact countType_eq_one 21 21 _ _ m.playerPos inv.pIn inv.pAt
      (fun u hu hut => by
        by_contra hune
        exact inv.pUniq u hu hune hut)
  · exact countType_le_one 21 21 _ _ m.targetPos inv.tAt

/-! ## C1: the generator carves a perfect maze -/

/-- The four 4-connected (unit) neighbours of a cell. -/
def nbs1 (v : Vector2i) : List Vector2i :=
  [⟨v.x + 1, v.y⟩, ⟨v.x - 1, v.y⟩, ⟨v.x, v.y + 1⟩, ⟨v.x, v.y - 1⟩]

/-- The four distance-2 lattice neighbours of a room. -/
def nbs2 (v : Vector2i) : List Vector2i :=
  [⟨v.x + 2, v.y⟩, ⟨v.x - 2, v.y⟩, ⟨v.x, v.y + 2⟩, ⟨v.x, v.y - 2⟩]

lemma adj_iff_nbs1 {u v : Vector2i} : Adj u v ↔ v ∈ nbs1 u := by
  constructor
  · rintro ⟨d, hd, rfl⟩
    fin_cases hd <;> · simp [nbs1, vadd, Vector2i.mk.injEq]; try omega
  · intro hv
    rcases List.mem_cons.mp hv with h | hv
    · exact ⟨⟨1, 0⟩, by simp [directions],
        by rw [h]; apply vec_ext <;> simp [vadd]⟩
    rcases List.mem_cons.mp hv with h | hv
    · exact ⟨⟨-1, 0⟩, by simp [directions],
        by rw [h]; apply vec_ext <;> · simp [vadd]; try omega⟩
    rcases List.mem_cons.mp hv with h | hv
    · exact ⟨⟨0, 1⟩, by simp [directions],
        by rw [h]; apply vec_ext <;> simp [vadd]⟩
    rcases List.mem_cons.mp hv with h | hv
    · exact ⟨⟨0, -1⟩, by simp [directions],
        by rw [h]; apply vec_ext <;> · simp [vadd]; try omega⟩
    · cases hv

lemma setCellType_apply_visited (g : Grid) (y x : Int) (t : CellType) (Y X : Int) :
    ((setCellType g y x t) Y X).visited = (g Y X).visited := by
  simp only [setCellType]; split <;> rfl

lemma carve_type (g : Grid) (my mx ny nx Y X : Int) :
    ((setVisited (setCellType (setCellType g my mx .PATH) ny nx .PATH) ny nx true)
        Y X).type =
      if Y = ny ∧ X = nx then .PATH
      else if Y = my ∧ X = mx then .PATH
      else (g Y X).type := by
  rw [setVisited_apply_type]
  by_cases h1 : Y = ny ∧ X = nx
  · obtain ⟨rfl, rfl⟩ := h1
    rw [if_pos ⟨rfl, rfl⟩]
    exact setCellType_same _ _ _ _
  · rw [if_neg h1, setCellType_other _ _ _ _ _ _ h1]
    by_cases h2 : Y = my ∧ X = mx
    · obtain ⟨rfl, rfl⟩ := h2
      rw [if_pos ⟨rfl, rfl⟩]
      exact setCellType_same _ _ _ _
    · rw [if_neg h2, setCellType_other _ _ _ _ _ _ h2]

lemma carve_visited (g : Grid) (my mx ny nx Y X : Int) :
    ((setVisited (setCellType (setCellType g my mx .PATH) ny nx .PATH) ny nx true)
        Y X).visited =
      if Y = ny ∧ X = nx then true else (g Y X).visited := by
  by_cases h1 : Y = ny ∧ X = nx
  · obtain ⟨rfl, rfl⟩ := h1
    rw [if_pos ⟨rfl, rfl⟩]
    simp [setVisited]
  · rw [if_neg h1]
    simp only [setVisited]
    rw [if_neg h1, setCellType_apply_visited, setCellType_apply_visited]

/-- Number of visited rooms. -/
def visRoomCount (W H : ℕ) (g : Grid) : ℕ :=
  ((cellBox W H).filter fun p =>
    roomCell W H ⟨p.1, p.2⟩ ∧ (g p.2 p.1).visited = true).card

/-- Number of unvisited rooms (the loop measure component). -/
def unvisRoomCount (W H : ℕ) (g : Grid) : ℕ :=
  ((cellBox W H).filter fun p =>
    roomCell W H ⟨p.1, p.2⟩ ∧ ¬(g p.2 p.1).visited = true).card

/-- The loop invariant of `genLoop`. -/
structure GenInv (W H : ℕ) (g : Grid) (stack : List Vector2i) : Prop where
  stackRooms : ∀ v ∈ stack, roomCell W H v ∧ visIn g v
  visRooms : ∀ v : Vector2i, inBp W H v → visIn g v → roomCell W H v
  origin : visIn g ⟨1, 1⟩
  roomPath : ∀ v, roomCell W H v → visIn g v → (g v.y v.x).type = .PATH
  endPath : (g ((H : ℤ) - 2) ((W : ℤ) - 2)).type = .PATH
  pathChar : ∀ v, inBp W H v → (g v.y v.x).type = .PATH →
    roomCell W H v ∨ midCell W H v
  roomPathVis : ∀ v, roomCell W H v → (g v.y v.x).type = .PATH →
    visIn g v ∨ v = ⟨(W : ℤ) - 2, (H : ℤ) - 2⟩
  midEnds : ∀ v, midCell W H v → (g v.y v.x).type = .PATH →
    ∀ r ∈ nbs1 v, roomCell W H r → visIn g r
  count : carvedMidCount W H g + 1 = visRoomCount W H g
  reach : ∀ v, roomCell W H v → visIn g v → ReachableFrom W H g ⟨1, 1⟩ v
  closed : ∀ v, roomCell W H v → visIn g v → v ∉ stack →
    ∀ r ∈ nbs2 v, roomCell W H r → visIn g r

lemma pathTo_mono {W H : ℕ} {g g' : Grid}
    (hmono : ∀ v, walkable W H g v → walkable W H g' v) {src v : Vector2i} {n : ℕ} :
    PathTo W H g src v n → PathTo W H g' src v n := by
  intro h
  induction h with
  | refl => exact .refl
  | step hp hadj hw ih => exact .step ih hadj (hmono _ hw)

lemma reach_mono {W H : ℕ} {g g' : Grid}
    (hmono : ∀ v, walkable W H g v → walkable W H g' v) {src v : Vector2i} :
    ReachableFrom W H g src v → ReachableFrom W H g' src v := by
  rintro ⟨n, hn⟩
  exact ⟨n, pathTo_mono hmono hn⟩

lemma mem_getUnvisitedNeighbors {W H : ℕ} {g : Grid} {x y : Int} {p : Vector2i} :
    p ∈ getUnvisitedNeighbors W H g x y ↔
    (p ∈ ([⟨x + 2, y⟩, ⟨x - 2, y⟩, ⟨x, y + 2⟩, ⟨x, y - 2⟩] : List Vector2i) ∧
     (1 ≤ p.x ∧ p.x < (W : ℤ) - 1 ∧ 1 ≤ p.y ∧ p.y < (H : ℤ) - 1 ∧
      ¬(g p.y p.x).visited = true)) := by
  unfold getUnvisitedNeighbors
  rw [List.mem_filter, decide_eq_true_eq]

lemma carve_analysis {W H : ℕ} (hWo : W % 2 = 1) (hHo : H % 2 = 1)
    {g : Grid} {cur next : Vector2i}
    (hcur : roomCell W H cur)
    (hmem : next ∈ getUnvisitedNeighbors W H g cur.x cur.y) :
    roomCell W H next ∧
    ¬ visIn g next ∧
    midCell W H ⟨(cur.x + next.x) / 2, (cur.y + next.y) / 2⟩ ∧
    Adj cur ⟨(cur.x + next.x) / 2, (cur.y + next.y) / 2⟩ ∧
    Adj ⟨(cur.x + next.x) / 2, (cur.y + next.y) / 2⟩ next ∧
    (∀ r ∈ nbs1 ⟨(cur.x + next.x) / 2, (cur.y + next.y) / 2⟩,
      roomCell W H r → r = cur ∨ r = next) ∧
    next ∈ nbs2 cur := by
  obtain ⟨hlist, hb⟩ := mem_getUnvisitedNeighbors.mp hmem
  have hWn : (5 : ℤ) ≤ (W : ℤ) ∨ True := Or.inr trivial
  obtain ⟨hc1, hc2, hc3, hc4, hc5, hc6⟩ := hcur
  have hvis : ¬ visIn g next := hb.2.2.2.2
  have hWoZ : (W : ℤ) % 2 = 1 := by omega
  have hHoZ : (H : ℤ) % 2 = 1 := by omega
  rcases List.mem_cons.mp hlist with hn | hlist
  · -- next = (cur.x + 2, cur.y)
    subst hn
    dsimp only at hb ⊢
    have hmid : (⟨(cur.x + (cur.x + 2)) / 2, (cur.y + cur.y) / 2⟩ : Vector2i) =
        ⟨cur.x + 1, cur.y⟩ := vec_ext (by dsimp only; omega) (by dsimp only; omega)
    rw [hmid]
    refine ⟨⟨by dsimp only; omega, by dsimp only; omega, by dsimp only; omega,
        by dsimp only; omega, by dsimp only; omega, by dsimp only; omega⟩, hvis,
      ⟨by dsimp only; omega, by dsimp only; omega, by dsimp only; omega,
        by dsimp only; omega, by dsimp only; omega⟩, ?_, ?_, ?_, ?_⟩
    · refine adj_iff_nbs1.mpr ?_
      exact List.mem_cons_self _ _
    · refine adj_iff_nbs1.mpr ?_
      have hEq : (⟨cur.x + 2, cur.y⟩ : Vector2i) =
          ⟨(⟨cur.x + 1, cur.y⟩ : Vector2i).x + 1, (⟨cur.x + 1, cur.y⟩ : Vector2i).y⟩ :=
        vec_ext (by dsimp only; omega) (by dsimp only; try omega)
      rw [hEq]
      exact List.mem_cons_self _ _
    · intro r hr hroom
      obtain ⟨g1, g2, g3, g4, g5, g6⟩ := hroom
      fin_cases hr
      · right
        apply vec_ext <;> dsimp only <;> omega
      · left
        apply vec_ext <;> dsimp only <;> omega
      · exfalso
        dsimp only at g5
        omega
      · exfalso
        dsimp only at g5
        omega
    · exact List.mem_cons_self _ _
  · rcases List.mem_cons.mp hlist with hn | hlist
    · subst hn
      dsimp only at hb ⊢
      have hmid : (⟨(cur.x + (cur.x - 2)) / 2, (cur.y + cur.y) / 2⟩ : Vector2i) =
          ⟨cur.x - 1, cur.y⟩ := vec_ext (by dsimp only; omega) (by dsimp only; omega)
      rw [hmid]
      refine ⟨⟨by dsimp only; omega, by dsimp only; omega, by dsimp only; omega,
          by dsimp only; omega, by dsimp only; omega, by dsimp only; omega⟩, hvis,
        ⟨by dsimp only; omega, by dsimp only; omega, by dsimp only; omega,
          by dsimp only; omega, by dsimp only; omega⟩, ?_, ?_, ?_, ?_⟩
      · refine adj_iff_nbs1.mpr ?_
        exact List.mem_cons_of_mem _ (List.mem_cons_self _ _)
      · refine adj_iff_nbs1.mpr ?_
        have hEq : (⟨cur.x - 2, cur.y⟩ : Vector2i) =
            ⟨(⟨cur.x - 1, cur.y⟩ : Vector2i).x - 1, (⟨cur.x - 1, cur.y⟩ : Vector2i).y⟩ :=
          vec_ext (by dsimp only; omega) (by dsimp only; try omega)
        rw [hEq]
        exact List.mem_cons_of_mem _ (List.mem_cons_self _ _)
      · intro r hr hroom
        obtain ⟨g1, g2, g3, g4, g5, g6⟩ := hroom
        fin_cases hr
        · left
          apply vec_ext <;> dsimp only <;> omega
        · right
          apply vec_ext <;> dsimp only <;> omega
        · exfalso
          dsimp only at g5
          omega
        · exfalso
          dsimp only at g5
          omega
      · exact List.mem_cons_of_mem _ (List.mem_cons_self _ _)
    · rcases List.mem_cons.mp hlist with hn | hlist
      · subst hn
        dsimp only at hb ⊢
        have hmid : (⟨(cur.x + cur.x) / 2, (cur.y + (cur.y + 2)) / 2⟩ : Vector2i) =
            ⟨cur.x, cur.y + 1⟩ := vec_ext (by dsimp only; omega) (by dsimp only; omega)
        rw [hmid]
        refine ⟨⟨by dsimp only; omega, by dsimp only; omega, by dsimp only; omega,
            by dsimp only; omega, by dsimp only; omega, by dsimp only; omega⟩, hvis,
          ⟨by dsimp only; omega, by dsimp only; omega, by dsimp only; omega,
            by dsimp only; omega, by dsimp only; omega⟩, ?_, ?_, ?_, ?_⟩
        · refine adj_iff_nbs1.mpr ?_
          exact List.mem_cons_of_mem _ (List.mem_cons_of_mem _ (List.mem_cons_self _ _))
        · refine adj_iff_nbs1.mpr ?_
          have hEq : (⟨cur.x, cur.y + 2⟩ : Vector2i) =
              ⟨(⟨cur.x, cur.y + 1⟩ : Vector2i).x, (⟨cur.x, cur.y + 1⟩ : Vector2i).y + 1⟩ :=
            vec_ext (by dsimp only; try omega) (by dsimp only; omega)
          rw [hEq]
          exact List.mem_cons_of_mem _ (List.mem_cons_of_mem _ (List.mem_cons_self _ _))
        · intro r hr hroom
          obtain ⟨g1, g2, g3, g4, g5, g6⟩ := hroom
          fin_cases hr
          · exfalso
            dsimp only at g6
            omega
          · exfalso
            dsimp only at g6
            omega
          · right
            apply vec_ext <;> dsimp only <;> omega
          · left
            apply vec_ext <;> dsimp only <;> omega
        · exact List.mem_cons_of_mem _ (List.mem_cons_of_mem _ (List.mem_cons_self _ _))
      · rcases List.mem_cons.mp hlist with hn | hlist
        · subst hn
          dsimp only at hb ⊢
          have hmid : (⟨(cur.x + cur.x) / 2, (cur.y + (cur.y - 2)) / 2⟩ : Vector2i) =
              ⟨cur.x, cur.y - 1⟩ := vec_ext (by dsimp only; omega) (by dsimp only; omega)
          rw [hmid]
          refine ⟨⟨by dsimp only; omega, by dsimp only; omega, by dsimp only; omega,
              by dsimp only; omega, by dsimp only; omega, by dsimp only; omega⟩, hvis,
            ⟨by dsimp only; omega, by dsimp only; omega, by dsimp only; omega,
              by dsimp only; omega, by dsimp only; omega⟩, ?_, ?_, ?_, ?_⟩
          · refine adj_iff_nbs1.mpr ?_
            exact List.mem_cons_of_mem _ (List.mem_cons_of_mem _
              (List.mem_cons_of_mem _ (List.mem_cons_self _ _)))
          · refine adj_iff_nbs1.mpr ?_
            have hEq : (⟨cur.x, cur.y - 2⟩ : Vector2i) =
                ⟨(⟨cur.x, cur.y - 1⟩ : Vector2i).x, (⟨cur.x, cur.y - 1⟩ : Vector2i).y - 1⟩ :=
              vec_ext (by dsimp only; try omega) (by dsimp only; omega)
            rw [hEq]
            exact List.mem_cons_of_mem _ (List.mem_cons_of_mem _
              (List.mem_cons_of_mem _ (List.mem_cons_self _ _)))
          · intro r hr hroom
            obtain ⟨g1, g2, g3, g4, g5, g6⟩ := hroom
            fin_cases hr
            · exfalso
              dsimp only at g6
              omega
            · exfalso
              dsimp only at g6
              omega
            · left
              apply vec_ext <;> dsimp only <;> omega
            · right
              apply vec_ext <;> dsimp only <;> omega
          · exact List.mem_cons_of_mem _ (List.mem_cons_of_mem _
              (List.mem_cons_of_mem _ (List.mem_cons_self _ _)))
        · cases hlist

lemma room_mid_disjoint {W H : ℕ} {v : Vector2i}
    (hr : roomCell W H v) (hm : midCell W H v) : False := by
  obtain ⟨_, _, _, _, h5, h6⟩ := hr
  obtain ⟨_, _, _, _, hp⟩ := hm
  rcases hp with ⟨p1, p2⟩ | ⟨p1, p2⟩ <;> omega

lemma roomCell_inBp {W H : ℕ} {v : Vector2i} (h : roomCell W H v) :
    inBp W H v := by
  obtain ⟨h1, h2, h3, h4, _, _⟩ := h
  exact ⟨by omega, by omega, by omega, by omega⟩

lemma midCell_inBp {W H : ℕ} {v : Vector2i} (h : midCell W H v) :
    inBp W H v := by
  obtain ⟨h1, h2, h3, h4, _⟩ := h
  exact ⟨by omega, by omega, by omega, by omega⟩

lemma carve_carvedMidCount {W H : ℕ} {g : Grid} {my mx ny nx : Int}
    (hmid : midCell W H ⟨mx, my⟩) (hnext : roomCell W H ⟨nx, ny⟩)
    (hnp : (g my mx).type ≠ .PATH) :
    carvedMidCount W H
      (setVisited (setCellType (setCellType g my mx .PATH) ny nx .PATH) ny nx true) =
    carvedMidCount W H g + 1 := by
  unfold carvedMidCount
  have hmn : ¬((my : Int) = ny ∧ (mx : Int) = nx) := by
    intro ⟨h1, h2⟩
    exact room_mid_disjoint hnext (by
      have : (⟨mx, my⟩ : Vector2i) = ⟨nx, ny⟩ := vec_ext h2 h1
      rwa [this] at hmid)
  have hset : (cellBox W H).filter (fun p => midCell W H ⟨p.1, p.2⟩ ∧
      ((setVisited (setCellType (setCellType g my mx .PATH) ny nx .PATH) ny nx true)
        p.2 p.1).type = .PATH) =
      insert (mx, my) ((cellBox W H).filter
        (fun p => midCell W H ⟨p.1, p.2⟩ ∧ (g p.2 p.1).type = .PATH)) := by
    ext p
    simp only [Finset.mem_filter, Finset.mem_insert]
    rw [carve_type]
    constructor
    · intro ⟨hbox, hm, hty⟩
      by_cases h1 : p.2 = ny ∧ p.1 = nx
      · exfalso
        have hp : (⟨p.1, p.2⟩ : Vector2i) = ⟨nx, ny⟩ := vec_ext h1.2 h1.1
        rw [hp] at hm
        exact room_mid_disjoint hnext hm
      · rw [if_neg h1] at hty
        by_cases h2 : p.2 = my ∧ p.1 = mx
        · left
          exact Prod.ext h2.2 h2.1
        · rw [if_neg h2] at hty
          exact Or.inr ⟨hbox, hm, hty⟩
    · intro h
      rcases h with hpm | ⟨hbox, hm, hty⟩
      · have hp1 : p.1 = mx := congrArg Prod.fst hpm
        have hp2 : p.2 = my := congrArg Prod.snd hpm
        subst hp1
        subst hp2
        refine ⟨?_, ?_, ?_⟩
        · exact mem_cellBox.mpr (midCell_inBp hmid)
        · exact hmid
        · rw [if_neg (by
            intro ⟨h1, h2⟩
            exact hmn ⟨h1, h2⟩), if_pos ⟨rfl, rfl⟩]
      · refine ⟨hbox, hm, ?_⟩
        have hne1 : ¬(p.2 = ny ∧ p.1 = nx) := by
          intro ⟨h1, h2⟩
          have hp : (⟨p.1, p.2⟩ : Vector2i) = ⟨nx, ny⟩ := vec_ext h2 h1
          rw [hp] at hm
          exact room_mid_disjoint hnext hm
        rw [if_neg hne1]
        by_cases h2 : p.2 = my ∧ p.1 = mx
        · rw [if_pos h2]
        · rw [if_neg h2]
          exact hty
  rw [hset, Finset.card_insert_of_not_mem]
  intro hmem
  exact hnp (Finset.mem_filter.mp hmem).2.2

lemma carve_visRoomCount {W H : ℕ} {g : Grid} (my mx : Int) {ny nx : Int}
    (hnext : roomCell W H ⟨nx, ny⟩) (hnv : ¬ visIn g ⟨nx, ny⟩) :
    visRoomCount W H
      (setVisited (setCellType (setCellType g my mx .PATH) ny nx .PATH) ny nx true) =
    visRoomCount W H g + 1 := by
  unfold visRoomCount
  have hset : (cellBox W H).filter (fun p => roomCell W H ⟨p.1, p.2⟩ ∧
      ((setVisited (setCellType (setCellType g my mx .PATH) ny nx .PATH) ny nx true)
        p.2 p.1).visited = true) =
      insert (nx, ny) ((cellBox W H).filter
        (fun p => roomCell W H ⟨p.1, p.2⟩ ∧ (g p.2 p.1).visited = true)) := by
    ext p
    simp only [Finset.mem_filter, Finset.mem_insert]
    rw [carve_visited]
    constructor
    · intro ⟨hbox, hm, hty⟩
      by_cases h1 : p.2 = ny ∧ p.1 = nx
      · left
        exact Prod.ext h1.2 h1.1
      · rw [if_neg h1] at hty
        exact Or.inr ⟨hbox, hm, hty⟩
    · intro h
      rcases h with hpm | ⟨hbox, hm, hty⟩
      · have hp1 : p.1 = nx := congrArg Prod.fst hpm
        have hp2 : p.2 = ny := congrArg Prod.snd hpm
        subst hp1
        subst hp2
        exact ⟨mem_cellBox.mpr (roomCell_inBp hnext), hnext, by rw [if_pos ⟨rfl, rfl⟩]⟩
      · refine ⟨hbox, hm, ?_⟩
        by_cases h1 : p.2 = ny ∧ p.1 = nx
        · rw [if_pos h1]
        · rw [if_neg h1]
          exact hty
  rw [hset, Finset.card_insert_of_not_mem]
  intro hmem
  exact hnv (Finset.mem_filter.mp hmem).2.2

lemma carve_unvisRoomCount {W H : ℕ} {g : Grid} (my mx : Int) {ny nx : Int}
    (hnext : roomCell W H ⟨nx, ny⟩) (hnv : ¬ visIn g ⟨nx, ny⟩) :
    unvisRoomCount W H g =
    unvisRoomCount W H
      (setVisited (setCellType (setCellType g my mx .PATH) ny nx .PATH) ny nx true)
      + 1 := by
  unfold unvisRoomCount
  have hset : (cellBox W H).filter (fun p => roomCell W H ⟨p.1, p.2⟩ ∧
      ¬((setVisited (setCellType (setCellType g my mx .PATH) ny nx .PATH) ny nx true)
        p.2 p.1).visited = true) =
      ((cellBox W H).filter
        (fun p => roomCell W H ⟨p.1, p.2⟩ ∧ ¬(g p.2 p.1).visited = true)).erase (nx, ny) := by
    ext p
    simp only [Finset.mem_filter, Finset.mem_erase]
    rw [carve_visited]
    constructor
    · intro ⟨hbox, hm, hty⟩
      by_cases h1 : p.2 = ny ∧ p.1 = nx
      · exfalso
        rw [if_pos h1] at hty
        exact hty rfl
      · rw [if_neg h1] at hty
        refine ⟨?_, hbox, hm, hty⟩
        intro hpe
        apply h1
        exact ⟨congrArg Prod.snd hpe, congrArg Prod.fst hpe⟩
    · intro ⟨hne, hbox, hm, hty⟩
      refine ⟨hbox, hm, ?_⟩
      have h1 : ¬(p.2 = ny ∧ p.1 = nx) := by
        intro ⟨ha, hb⟩
        exact hne (Prod.ext hb ha)
      rw [if_neg h1]
      exact hty
  rw [hset, Finset.card_erase_of_mem]
  · have hpos : 0 < ((cellBox W H).filter
        (fun p => roomCell W H ⟨p.1, p.2⟩ ∧ ¬(g p.2 p.1).visited = true)).card :=
      Finset.card_pos.mpr ⟨(nx, ny), Finset.mem_filter.mpr
        ⟨mem_cellBox.mpr (roomCell_inBp hnext), hnext, hnv⟩⟩
    omega
  · exact Finset.mem_filter.mpr ⟨mem_cellBox.mpr (roomCell_inBp hnext), hnext, hnv⟩

lemma genInv_pop {W H : ℕ} {g : Grid} {cur : Vector2i} {rest : List Vector2i}
    (hinv : GenInv W H g (cur :: rest))
    (hns : getUnvisitedNeighbors W H g cur.x cur.y = []) :
    GenInv W H g rest := by
  refine ⟨fun v hv => hinv.stackRooms v (List.mem_cons_of_mem _ hv),
    hinv.visRooms, hinv.origin, hinv.roomPath, hinv.endPath, hinv.pathChar,
    hinv.roomPathVis, hinv.midEnds, hinv.count, hinv.reach, ?_⟩
  intro v hroom hvis hnotin r hr hroomr
  by_cases hvc : v = cur
  · subst hvc
    by_contra hnv
    have hrmem : r ∈ getUnvisitedNeighbors W H g v.x v.y := by
      apply mem_getUnvisitedNeighbors.mpr
      refine ⟨hr, ?_⟩
      obtain ⟨h1, h2, h3, h4, _, _⟩ := hroomr
      exact ⟨by omega, by omega, by omega, by omega, hnv⟩
    rw [hns] at hrmem
    cases hrmem
  · refine hinv.closed v hroom hvis ?_ r hr hroomr
    intro hmem
    rcases List.mem_cons.mp hmem with h | h
    · exact hvc h
    · exact hnotin h

lemma genInv_carve_step {W H : ℕ} (hWo : W % 2 = 1) (hHo : H % 2 = 1)
    {g : Grid} {cur next : Vector2i} {rest : List Vector2i}
    (hinv : GenInv W H g (cur :: rest))
    (hmem : next ∈ getUnvisitedNeighbors W H g cur.x cur.y) :
    GenInv W H
      (setVisited (setCellType (setCellType g ((cur.y + next.y) / 2)
        ((cur.x + next.x) / 2) .PATH) next.y next.x .PATH) next.y next.x true)
      (next :: cur :: rest) ∧
    unvisRoomCount W H g =
      unvisRoomCount W H
        (setVisited (setCellType (setCellType g ((cur.y + next.y) / 2)
          ((cur.x + next.x) / 2) .PATH) next.y next.x .PATH) next.y next.x true)
        + 1 := by
  have hcurroom : roomCell W H cur := (hinv.stackRooms cur (List.mem_cons_self _ _)).1
  have hcurvis : visIn g cur := (hinv.stackRooms cur (List.mem_cons_self _ _)).2
  obtain ⟨hnroom, hnnv, hmid, hadj1, hadj2, hmnb, hnbs2x⟩ :=
    carve_analysis hWo hHo hcurroom hmem
  have hmidnp : (g ((cur.y + next.y) / 2) ((cur.x + next.x) / 2)).type ≠ .PATH := by
    intro hp
    exact hnnv (hinv.midEnds ⟨(cur.x + next.x) / 2, (cur.y + next.y) / 2⟩ hmid hp next
      (adj_iff_nbs1.mp hadj2) hnroom)
  have hcarvecnt := carve_carvedMidCount hmid hnroom hmidnp
  have hviscnt := carve_visRoomCount ((cur.y + next.y) / 2) ((cur.x + next.x) / 2)
    hnroom hnnv
  have hunvcnt := carve_unvisRoomCount ((cur.y + next.y) / 2) ((cur.x + next.x) / 2)
    hnroom hnnv
  set mid : Vector2i := ⟨(cur.x + next.x) / 2, (cur.y + next.y) / 2⟩ with hmiddef
  set g3 := setVisited (setCellType (setCellType g ((cur.y + next.y) / 2)
      ((cur.x + next.x) / 2) .PATH) next.y next.x .PATH) next.y next.x true with hg3
  have hty3 : ∀ Y X : Int, (g3 Y X).type =
      if Y = next.y ∧ X = next.x then CellType.PATH
      else if Y = (cur.y + next.y) / 2 ∧ X = (cur.x + next.x) / 2 then CellType.PATH
      else (g Y X).type := by
    intro Y X
    rw [hg3, carve_type]
  have hvis3 : ∀ v : Vector2i, visIn g3 v ↔ (v = next ∨ visIn g v) := by
    intro v
    unfold visIn
    rw [hg3, carve_visited]
    by_cases h1 : v = next
    · subst h1
      rw [if_pos ⟨rfl, rfl⟩]
      exact iff_of_true rfl (Or.inl rfl)
    · rw [if_neg (fun hc => h1 (vec_ext hc.2 hc.1))]
      constructor
      · exact fun h => Or.inr h
      · rintro (h | h)
        · exact absurd h h1
        · exact h
  refine ⟨⟨?_, ?_, ?_, ?_, ?_, ?_, ?_, ?_, ?_, ?_, ?_⟩, hunvcnt⟩
  · -- stackRooms
    intro v hv
    rcases List.mem_cons.mp hv with rfl | hv
    · exact ⟨hnroom, (hvis3 _).mpr (Or.inl rfl)⟩
    · have h := hinv.stackRooms v hv
      exact ⟨h.1, (hvis3 _).mpr (Or.inr h.2)⟩
  · -- visRooms
    intro v hb hv
    rcases (hvis3 v).mp hv with rfl | hv
    · exact hnroom
    · exact hinv.visRooms v hb hv
  · -- origin
    exact (hvis3 _).mpr (Or.inr hinv.origin)
  · -- roomPath
    intro v hroom hv
    rw [hty3]
    split
    · rfl
    · split
      · rfl
      · rename_i h1 h2
        refine hinv.roomPath v hroom (((hvis3 v).mp hv).resolve_left ?_)
        intro hveq
        subst hveq
        exact h1 ⟨rfl, rfl⟩
  · -- endPath
    rw [hty3]
    split
    · rfl
    · split
      · rfl
      · exact hinv.endPath
  · -- pathChar
    intro v hb hp
    rw [hty3] at hp
    split at hp
    · rename_i h
      left
      have hveq : v = next := vec_ext h.2 h.1
      rw [hveq]
      exact hnroom
    · split at hp
      · rename_i h1 h2
        right
        have hveq : v = mid := vec_ext h2.2 h2.1
        rw [hveq]
        exact hmid
      · exact hinv.pathChar v hb hp
  · -- roomPathVis
    intro v hroom hp
    rw [hty3] at hp
    split at hp
    · rename_i h
      have hveq : v = next := vec_ext h.2 h.1
      subst hveq
      exact Or.inl ((hvis3 _).mpr (Or.inl rfl))
    · split at hp
      · rename_i h1 h2
        exfalso
        have hveq : v = mid := vec_ext h2.2 h2.1
        rw [hveq] at hroom
        exact room_mid_disjoint hroom hmid
      · rcases hinv.roomPathVis v hroom hp with h | h
        · exact Or.inl ((hvis3 _).mpr (Or.inr h))
        · exact Or.inr h
  · -- midEnds
    intro v hv hp r hr hroomr
    rw [hty3] at hp
    split at hp
    · rename_i h
      exfalso
      have hveq : v = next := vec_ext h.2 h.1
      rw [hveq] at hv
      exact room_mid_disjoint hnroom hv
    · split at hp
      · rename_i h1 h2
        have hveq : v = mid := vec_ext h2.2 h2.1
        rw [hveq] at hr
        rcases hmnb r hr hroomr with rfl | rfl
        · exact (hvis3 _).mpr (Or.inr hcurvis)
        · exact (hvis3 _).mpr (Or.inl rfl)
      · exact (hvis3 _).mpr (Or.inr (hinv.midEnds v hv hp r hr hroomr))
  · -- count
    have h1 : carvedMidCount W H g3 = carvedMidCount W H g + 1 := hcarvecnt
    have h2 : visRoomCount W H g3 = visRoomCount W H g + 1 := hviscnt
    have h3 := hinv.count
    rw [h1, h2]
    omega
  · -- reach
    have hmono : ∀ v, walkable W H g v → walkable W H g3 v := by
      intro v hvw
      refine ⟨hvw.1, ?_⟩
      rw [hty3]
      split
      · exact fun h => nomatch h
      · split
        · exact fun h => nomatch h
        · exact hvw.2
    intro v hroom hv
    rcases (hvis3 v).mp hv with rfl | hv'
    · have hrc : ReachableFrom W H g ⟨1, 1⟩ cur := hinv.reach cur hcurroom hcurvis
      obtain ⟨n, hn⟩ := reach_mono hmono hrc
      have hmw : walkable W H g3 mid := by
        refine ⟨midCell_inBp hmid, ?_⟩
        rw [hty3]
        split
        · exact fun h => nomatch h
        · split
          · exact fun h => nomatch h
          · rename_i h1 h2
            exact absurd ⟨rfl, rfl⟩ h2
      have hnw : walkable W H g3 v := by
        refine ⟨roomCell_inBp hnroom, ?_⟩
        rw [hty3]
        rw [if_pos ⟨rfl, rfl⟩]
        exact fun h => nomatch h
      exact ⟨n + 1 + 1, .step (.step hn hadj1 hmw) hadj2 hnw⟩
    · exact reach_mono hmono (hinv.reach v hroom hv')
  · -- closed
    intro v hroom hv hnot r hr hroomr
    have hvne : v ≠ next := by
      intro h
      exact hnot (by rw [h]; exact List.mem_cons_self _ _)
    have hvg : visIn g v := ((hvis3 v).mp hv).resolve_left hvne
    have hnotcr : v ∉ cur :: rest := fun h => hnot (List.mem_cons_of_mem _ h)
    exact (hvis3 r).mpr (Or.inr (hinv.closed v hroom hvg hnotcr r hr hroomr))

lemma genLoop_inv {W H : ℕ} (hWo : W % 2 = 1) (hHo : H % 2 = 1) (choice : ℕ → ℕ) :
    ∀ (fuel : ℕ) (g : Grid) (stack : List Vector2i) (step : ℕ),
    GenInv W H g stack →
    2 * unvisRoomCount W H g + stack.length ≤ fuel →
    GenInv W H (genLoop W H choice fuel g stack step) [] := by
  intro fuel
  induction fuel with
  | zero =>
    intro g stack step hinv hm
    have hempty : stack = [] := List.length_eq_zero.mp (by omega)
    subst hempty
    exact hinv
  | succ fuel ih =>
    intro g stack step hinv hm
    cases stack with
    | nil => exact hinv
    | cons cur rest =>
      simp only [genLoop]
      split
      · rename_i hns
        refine ih _ _ _ (genInv_pop hinv hns) ?_
        simp only [List.length_cons] at hm
        omega
      · rename_i hns
        have hmem := List.get_mem (getUnvisitedNeighbors W H g cur.x cur.y)
          (choice step % (getUnvisitedNeighbors W H g cur.x cur.y).length)
          (Nat.mod_lt _ (List.length_pos.mpr hns))
        obtain ⟨hinv', hcount⟩ := genInv_carve_step hWo hHo hinv hmem
        refine ih _ _ _ hinv' ?_
        simp only [List.length_cons] at hm ⊢
        omega

lemma genInit_inv {W H : ℕ} (hW : 5 ≤ W) (hH : 5 ≤ H)
    (hWo : W % 2 = 1) (hHo : H % 2 = 1) {g0 : Grid}
    (hv0 : ∀ Y X : Int, (g0 Y X).visited = false) :
    GenInv W H
      (setVisited (setCellType (setCellType
        (fun y x => if isValidPosition W H x y then
          ({ type := .WALL, visited := false } : Cell) else g0 y x)
        1 1 .PATH) ((H : ℤ) - 2) ((W : ℤ) - 2) .PATH) 1 1 true)
      [⟨1, 1⟩] := by
  set gI := setVisited (setCellType (setCellType
      (fun y x => if isValidPosition W H x y then
        ({ type := .WALL, visited := false } : Cell) else g0 y x)
      1 1 .PATH) ((H : ℤ) - 2) ((W : ℤ) - 2) .PATH) 1 1 true with hgI
  have hty : ∀ Y X : Int, (gI Y X).type =
      if Y = (H : ℤ) - 2 ∧ X = (W : ℤ) - 2 then CellType.PATH
      else if Y = 1 ∧ X = 1 then CellType.PATH
      else if isValidPosition W H X Y then CellType.WALL else (g0 Y X).type := by
    intro Y X
    rw [hgI, setVisited_apply_type]
    by_cases h1 : Y = (H : ℤ) - 2 ∧ X = (W : ℤ) - 2
    · obtain ⟨rfl, rfl⟩ := h1
      rw [if_pos ⟨rfl, rfl⟩]
      exact setCellType_same _ _ _ _
    · rw [if_neg h1, setCellType_other _ _ _ _ _ _ h1]
      by_cases h2 : Y = 1 ∧ X = 1
      · obtain ⟨rfl, rfl⟩ := h2
        rw [if_pos ⟨rfl, rfl⟩]
        exact setCellType_same _ _ _ _
      · rw [if_neg h2, setCellType_other _ _ _ _ _ _ h2]
        split <;> rfl
  have hvz : ∀ Y X : Int, (gI Y X).visited =
      (if Y = 1 ∧ X = 1 then true else false) := by
    intro Y X
    rw [hgI]
    simp only [setVisited]
    by_cases h1 : Y = 1 ∧ X = 1
    · rw [if_pos h1, if_pos h1]
    · rw [if_neg h1, if_neg h1]
      rw [setCellType_apply_visited, setCellType_apply_visited]
      split
      · rfl
      · exact hv0 Y X
  have hvisiff : ∀ v : Vector2i, visIn gI v ↔ v = ⟨1, 1⟩ := by
    intro v
    unfold visIn
    rw [hvz]
    constructor
    · intro h
      split at h
      · rename_i hc
        exact vec_ext hc.2 hc.1
      · exact absurd h Bool.false_ne_true
    · rintro rfl
      rw [if_pos ⟨rfl, rfl⟩]
  have hroom11 : roomCell W H ⟨1, 1⟩ := by
    unfold roomCell
    dsimp only
    omega
  have hroomEnd : roomCell W H ⟨(W : ℤ) - 2, (H : ℤ) - 2⟩ := by
    unfold roomCell
    dsimp only
    omega
  refine ⟨?_, ?_, ?_, ?_, ?_, ?_, ?_, ?_, ?_, ?_, ?_⟩
  · -- stackRooms
    intro v hv
    rcases List.mem_cons.mp hv with rfl | h
    · exact ⟨hroom11, (hvisiff _).mpr rfl⟩
    · exact absurd h (List.not_mem_nil _)
  · -- visRooms
    intro v hb hv
    have hveq := (hvisiff v).mp hv
    subst hveq
    exact hroom11
  · -- origin
    exact (hvisiff _).mpr rfl
  · -- roomPath
    intro v hroom hv
    have hveq := (hvisiff v).mp hv
    subst hveq
    show (gI 1 1).type = CellType.PATH
    rw [hty]
    rw [if_neg (by omega), if_pos ⟨rfl, rfl⟩]
  · -- endPath
    rw [hty]
    rw [if_pos ⟨rfl, rfl⟩]
  · -- pathChar
    intro v hb hp
    rw [hty] at hp
    split at hp
    · rename_i h
      left
      obtain ⟨h1, h2⟩ := h
      unfold roomCell
      omega
    · split at hp
      · rename_i _ h
        left
        obtain ⟨h1, h2⟩ := h
        unfold roomCell
        omega
      · split at hp
        · exact absurd hp (fun hh => CellType.noConfusion hh)
        · rename_i h3
          exact absurd hb h3
  · -- roomPathVis
    intro v hroom hp
    rw [hty] at hp
    split at hp
    · rename_i h
      right
      exact vec_ext h.2 h.1
    · split at hp
      · rename_i _ h
        left
        exact (hvisiff v).mpr (vec_ext h.2 h.1)
      · split at hp
        · exact absurd hp (fun hh => CellType.noConfusion hh)
        · rename_i h3
          exact absurd (roomCell_inBp hroom) h3
  · -- midEnds
    intro v hmidv hp r hr hroomr
    rw [hty] at hp
    split at hp
    · rename_i h
      have hveq : v = ⟨(W : ℤ) - 2, (H : ℤ) - 2⟩ := vec_ext h.2 h.1
      rw [hveq] at hmidv
      exact absurd hmidv (fun hm => room_mid_disjoint hroomEnd hm)
    · split at hp
      · rename_i _ h
        have hveq : v = ⟨1, 1⟩ := vec_ext h.2 h.1
        rw [hveq] at hmidv
        exact absurd hmidv (fun hm => room_mid_disjoint hroom11 hm)
      · split at hp
        · exact absurd hp (fun hh => CellType.noConfusion hh)
        · rename_i h3
          exact absurd (midCell_inBp hmidv) h3
  · -- count
    have hc0 : carvedMidCount W H gI = 0 := by
      unfold carvedMidCount
      rw [Finset.card_eq_zero, Finset.filter_eq_empty_iff]
      intro p hp
      rintro ⟨hm, hpath⟩
      rw [hty] at hpath
      split at hpath
      · rename_i h
        have hroomp : roomCell W H ⟨p.1, p.2⟩ := by
          unfold roomCell
          dsimp only
          omega
        exact room_mid_disjoint hroomp hm
      · split at hpath
        · rename_i _ h
          unfold midCell at hm
          dsimp only at hm
          omega
        · split at hpath
          · exact CellType.noConfusion hpath
          · rename_i h3
            exact h3 (midCell_inBp hm)
    have hv1 : visRoomCount W H gI = 1 := by
      unfold visRoomCount
      rw [Finset.card_eq_one]
      refine ⟨(1, 1), ?_⟩
      ext p
      simp only [Finset.mem_filter, Finset.mem_singleton]
      constructor
      · rintro ⟨hbox, hroomp, hvisp⟩
        rw [hvz] at hvisp
        split at hvisp
        · rename_i h
          exact Prod.ext h.2 h.1
        · exact absurd hvisp Bool.false_ne_true
      · rintro rfl
        refine ⟨mem_cellBox.mpr ?_, hroom11, ?_⟩
        · exact ⟨by omega, by omega, by omega, by omega⟩
        · rw [hvz]
          rw [if_pos ⟨rfl, rfl⟩]
    rw [hc0, hv1]
  · -- reach
    intro v hroom hv
    have hveq := (hvisiff v).mp hv
    subst hveq
    exact ⟨0, .refl⟩
  · -- closed
    intro v hroom hv hnot
    have hveq := (hvisiff v).mp hv
    subst hveq
    exact absurd (List.mem_cons_self _ _) hnot

lemma unvisRoomCount_le (W H : ℕ) (g : Grid) : unvisRoomCount W H g ≤ W * H := by
  unfold unvisRoomCount
  calc ((cellBox W H).filter _).card ≤ (cellBox W H).card := Finset.card_filter_le _ _
  _ = W * H := cellBox_card W H

lemma generateMazeGrid_genInv {W H : ℕ} (hW : 5 ≤ W) (hH : 5 ≤ H)
    (hWo : W % 2 = 1) (hHo : H % 2 = 1) (choice : ℕ → ℕ) {g0 : Grid}
    (hv0 : ∀ Y X : Int, (g0 Y X).visited = false) :
    GenInv W H (generateMazeGrid W H choice g0) [] := by
  unfold generateMazeGrid
  refine genLoop_inv hWo hHo choice _ _ _ _ (genInit_inv hW hH hWo hHo hv0) ?_
  have := unvisRoomCount_le W H
    (setVisited (setCellType (setCellType
      (fun y x => if isValidPosition W H x y then
        ({ type := .WALL, visited := false } : Cell) else g0 y x)
      1 1 .PATH) ((H : ℤ) - 2) ((W : ℤ) - 2) .PATH) 1 1 true)
  have hassoc : 2 * W * H = 2 * (W * H) := Nat.mul_assoc 2 W H
  simp only [List.length_cons, List.length_nil]
  omega

lemma genInv_all_visited {W H : ℕ} {g : Grid} (hinv : GenInv W H g []) :
    ∀ v, roomCell W H v → visIn g v := by
  have hstep : ∀ (n : ℕ) (v : Vector2i), (v.x + v.y).toNat ≤ n →
      roomCell W H v → visIn g v := by
    intro n
    induction n with
    | zero =>
      intro v hle hroom
      exfalso
      obtain ⟨h1, _, h3, _⟩ := hroom
      omega
    | succ n ih =>
      intro v hle hroom
      by_cases hx : v.x = 1 ∧ v.y = 1
      · have hveq : v = ⟨1, 1⟩ := vec_ext hx.1 hx.2
        rw [hveq]
        exact hinv.origin
      · obtain ⟨h1, h2, h3, h4, h5, h6⟩ := hroom
        rcases (show 3 ≤ v.x ∨ 3 ≤ v.y by omega) with hgt | hgt
        · have huroom : roomCell W H ⟨v.x - 2, v.y⟩ :=
            ⟨by dsimp only; omega, by dsimp only; omega, by dsimp only; omega,
             by dsimp only; omega, by dsimp only; omega, h6⟩
          have huvis : visIn g ⟨v.x - 2, v.y⟩ :=
            ih ⟨v.x - 2, v.y⟩ (by dsimp only; omega) huroom
          refine hinv.closed ⟨v.x - 2, v.y⟩ huroom huvis (List.not_mem_nil _) v ?_
            ⟨h1, h2, h3, h4, h5, h6⟩
          apply List.mem_cons.mpr
          left
          exact vec_ext (by dsimp only; omega) rfl
        · have huroom : roomCell W H ⟨v.x, v.y - 2⟩ :=
            ⟨by dsimp only; omega, by dsimp only; omega, by dsimp only; omega,
             by dsimp only; omega, h5, by dsimp only; omega⟩
          have huvis : visIn g ⟨v.x, v.y - 2⟩ :=
            ih ⟨v.x, v.y - 2⟩ (by dsimp only; omega) huroom
          refine hinv.closed ⟨v.x, v.y - 2⟩ huroom huvis (List.not_mem_nil _) v ?_
            ⟨h1, h2, h3, h4, h5, h6⟩
          apply List.mem_cons.mpr
          right
          apply List.mem_cons.mpr
          right
          apply List.mem_cons.mpr
          left
          exact vec_ext rfl (by dsimp only; omega)
  intro v hroom
  exact hstep (v.x + v.y).toNat v le_rfl hroom

lemma maze_perfect_general {W H : ℕ} (hW : 5 ≤ W) (hH : 5 ≤ H)
    (hWo : W % 2 = 1) (hHo : H % 2 = 1) (choice : ℕ → ℕ) {g0 : Grid}
    (hv0 : ∀ Y X : Int, (g0 Y X).visited = false) :
    (∀ v, roomCell W H v →
      ((generateMazeGrid W H choice g0) v.y v.x).type = .PATH) ∧
    (∀ v, inBp W H v → ((generateMazeGrid W H choice g0) v.y v.x).type = .PATH →
      ReachableFrom W H (generateMazeGrid W H choice g0) ⟨1, 1⟩ v) ∧
    carvedMidCount W H (generateMazeGrid W H choice g0) + 1 =
      (roomFinset W H).card := by
  have hinv := generateMazeGrid_genInv hW hH hWo hHo choice hv0
  have hall := genInv_all_visited hinv
  refine ⟨?_, ?_, ?_⟩
  · intro v hroom
    exact hinv.roomPath v hroom (hall v hroom)
  · intro v hb hp
    rcases hinv.pathChar v hb hp with hroom | hmid
    · exact hinv.reach v hroom (hall v hroom)
    · have hwalk : walkable W H (generateMazeGrid W H choice g0) v :=
        ⟨hb, by rw [hp]; exact fun hh => CellType.noConfusion hh⟩
      obtain ⟨h1, h2, h3, h4, hpar⟩ := hmid
      rcases hpar with ⟨hx1, hy0⟩ | ⟨hx0, hy1⟩
      · have hroomr : roomCell W H ⟨v.x, v.y - 1⟩ :=
          ⟨by dsimp only; omega, by dsimp only; omega, by dsimp only; omega,
           by dsimp only; omega, by dsimp only; omega, by dsimp only; omega⟩
        obtain ⟨n, hn⟩ := hinv.reach _ hroomr (hall _ hroomr)
        refine ⟨n + 1, .step hn ?_ hwalk⟩
        exact ⟨⟨0, 1⟩, by simp [directions],
          by apply vec_ext <;> · simp [vadd]; try omega⟩
      · have hroomr : roomCell W H ⟨v.x - 1, v.y⟩ :=
          ⟨by dsimp only; omega, by dsimp only; omega, by dsimp only; omega,
           by dsimp only; omega, by dsimp only; omega, by dsimp only; omega⟩
        obtain ⟨n, hn⟩ := hinv.reach _ hroomr (hall _ hroomr)
        refine ⟨n + 1, .step hn ?_ hwalk⟩
        exact ⟨⟨1, 0⟩, by simp [directions],
          by apply vec_ext <;> · simp [vadd]; try omega⟩
  · have hcnt := hinv.count
    have hvr : visRoomCount W H (generateMazeGrid W H choice g0) =
        (roomFinset W H).card := by
      unfold visRoomCount roomFinset
      congr 1
      ext p
      simp only [Finset.mem_filter]
      constructor
      · rintro ⟨hb, hr, _⟩
        exact ⟨hb, hr⟩
      · rintro ⟨hb, hr⟩
        exact ⟨hb, hr, hall ⟨p.1, p.2⟩ hr⟩
    omega

/-- C1: for every selection oracle, running `generateMaze` on the 21×21
all-wall grid yields a perfect maze: every odd-coordinate room becomes
`PATH`, every in-bounds `PATH` cell is reachable from `(1,1)` through
4-connected non-wall cells, and the number of carved midpoint connections
is exactly `rooms - 1` (the rooms numbering `100`), i.e. the carved
passages form a spanning tree over the room lattice. -/
theorem generateMaze_perfect (choice : ℕ → ℕ) :
    (∀ v, roomCell 21 21 v →
      (((initMaze.generateMaze 21 21 choice).cells) v.y v.x).type = .PATH) ∧
    (∀ v, inBp 21 21 v →
      (((initMaze.generateMaze 21 21 choice).cells) v.y v.x).type = .PATH →
      ReachableFrom 21 21 ((initMaze.generateMaze 21 21 choice).cells) ⟨1, 1⟩ v) ∧
    carvedMidCount 21 21 ((initMaze.generateMaze 21 21 choice).cells) + 1 =
      (roomFinset 21 21).card ∧
    (roomFinset 21 21).card = 100 := by
  obtain ⟨ha, hb, hc⟩ := maze_perfect_general (W := 21) (H := 21)
    (by decide) (by decide) (by decide) (by decide) choice
    (fun _ _ => rfl : ∀ Y X : Int, (allWall Y X).visited = false)
  exact ⟨ha, hb, hc, by decide⟩
